import Mathlib

set_option maxHeartbeats 1000000

namespace Lec2

deriving instance DecidableEq for Except

/-!
Shallow embedding of src/MIT/6.006/lecture-2-data-structures.py.

The embedding models the dynamic array sequence (class DynamicArraySequence,
lines 305-400) and the key-value set built on it (class Set, lines 413-633).
Python runtime behaviour is modelled faithfully:

* a Python list of physical length L accepts indices in [-L, L), where
  negative indices count from the end; any other index raises IndexError;
* the logical size field of the sequence is a Python int and may go negative
  on degenerate call sequences, so it is modelled as an Int;
* slots of the backing buffer hold `Option` values, `none` standing for
  the Python value None used as padding;
* an operation that can raise returns `Except`; the error payload is the
  state of the object at the moment the exception escapes (Python leaves the
  partially mutated object behind when an exception propagates).
-/

/-- Position of a Python-style list access: given the physical length of the
list and an integer index, return the physical position read or written, or
`none` when Python would raise an IndexError.  Python accepts indices in
[-len, len); a negative index i denotes position len + i. -/
def pyIdx (len : Nat) (i : Int) : Option Nat :=
  if 0 ≤ i ∧ i < (len : Int) then some i.toNat
  else if -(len : Int) ≤ i ∧ i < 0 then some (i + len).toNat
  else none

/-- Python read access A[i]; `none` models an IndexError. -/
def pyget (A : List β) (i : Int) : Option β :=
  (pyIdx A.length i).bind fun j => A[j]?

/-- Python write access A[i] = v; `none` models an IndexError. -/
def pyset (A : List β) (i : Int) (v : β) : Option (List β) :=
  (pyIdx A.length i).map fun j => A.set j v

/-- ArraySequence._copy_forward (lines 72-93) specialised to a destination
list distinct from the source, as in DynamicArraySequence._resize: the loop
`for k in range(n) : A[j + k] = self.A[i + k]` where `self.A` is `src` and
`A` is `dst`.  The fuel argument is the iteration count n (Python's
`range(n)` is empty for n <= 0, so callers pass `n.toNat`).  On an
IndexError the error payload is the partially written destination. -/
def copyForwardSep (src : List β) : Int → List β → Int → Nat → Except (List β) (List β)
  | _, dst, _, 0 => .ok dst
  | i, dst, j, Nat.succ m =>
    match pyget src i with
    | none => .error dst
    | some v =>
      match pyset dst j v with
      | none => .error dst
      | some dst2 => copyForwardSep src (i + 1) dst2 (j + 1) m

/-- ArraySequence._copy_forward (lines 72-93) specialised to the aliased call
of DynamicArraySequence.delete_at (line 392), where the destination list `A`
is `self.A` itself: each iteration reads and writes the same evolving list,
exactly as Python does with the shared list object. -/
def copyForwardSelf : List β → Int → Int → Nat → Except (List β) (List β)
  | A, _, _, 0 => .ok A
  | A, i, j, Nat.succ m =>
    match pyget A i with
    | none => .error A
    | some v =>
      match pyset A j v with
      | none => .error A
      | some A2 => copyForwardSelf A2 (i + 1) (j + 1) m

/-- ArraySequence._copy_backward (lines 95-116) specialised to the aliased
call of DynamicArraySequence.insert_at (line 380): the loop
`for k in range(n - 1, -1, -1) : A[j + k] = self.A[i + k]` over the single
shared list, iterating k downward from n - 1 to 0. -/
def copyBackwardSelf : List β → Int → Int → Nat → Except (List β) (List β)
  | A, _, _, 0 => .ok A
  | A, i, j, Nat.succ m =>
    match pyget A (i + m) with
    | none => .error A
    | some v =>
      match pyset A (j + m) v with
      | none => .error A
      | some A2 => copyBackwardSelf A2 i j m

/-- State of a DynamicArraySequence object (lines 305-400): the backing
Python list A (slots hold None padding, modelled by `none`), the logical
size (a Python int), the growth factor r, and the cached bounds computed by
_compute_bounds.  The growth factor is modelled as a Nat; every theorem
below assumes 1 <= r (with r = 0 the Python constructor raises
ZeroDivisionError, and negative r is never exercised). -/
structure DynamicArraySequence (α : Type) where
  A : List (Option α)
  size : Int
  r : Nat
  upper : Nat
  lower : Nat
deriving DecidableEq, Repr

namespace DynamicArraySequence

/-- DynamicArraySequence._compute_bounds (lines 318-324):
upper = len(A), lower = len(A) // r², recomputed from the current buffer. -/
def computeBounds (s : DynamicArraySequence α) : DynamicArraySequence α :=
  { s with upper := s.A.length, lower := s.A.length / (s.r * s.r) }

/-- DynamicArraySequence.__init__ (lines 306-311): empty buffer, size 0,
then _compute_bounds. -/
def mkDyn (r : Nat) : DynamicArraySequence α :=
  computeBounds { A := [], size := 0, r := r, upper := 0, lower := 0 }

/-- DynamicArraySequence._resize (lines 326-341).  If lower < n < upper the
call returns immediately; otherwise a fresh buffer of m = max(n, 1) * r None
slots is allocated, the first `size` slots are copied forward into it, the
buffer is replaced and the bounds recomputed.  The copy count is
`size.toNat` because Python's `range(self.size)` is empty for negative
size.  A raise inside the copy leaves the object unchanged (the fresh
buffer is discarded). -/
def resize (s : DynamicArraySequence α) (n : Int) : Except (DynamicArraySequence α) (DynamicArraySequence α) :=
  if (s.lower : Int) < n ∧ n < (s.upper : Int) then .ok s
  else
    let m : Nat := (max n 1).toNat * s.r
    match copyForwardSep s.A 0 (List.replicate m (none : Option α)) 0 s.size.toNat with
    | .error _ => .error s
    | .ok Anew => .ok (computeBounds { s with A := Anew })

/-- DynamicArraySequence.insert_last (lines 343-353): resize to size + 1,
write x at physical index size, increment size.  The argument is an
`Option α` because the source passes None from insert_at. -/
def insert_last (s : DynamicArraySequence α) (x : Option α) : Except (DynamicArraySequence α) (DynamicArraySequence α) :=
  match resize s (s.size + 1) with
  | .error e => .error e
  | .ok s1 =>
    match pyset s1.A s1.size x with
    | none => .error s1
    | some A2 => .ok { s1 with A := A2, size := s1.size + 1 }

/-- DynamicArraySequence.delete_last (lines 355-367): read A[size - 1],
overwrite that slot with None, decrement size, resize to the new size, and
return the element read. -/
def delete_last (s : DynamicArraySequence α) : Except (DynamicArraySequence α) (Option α × DynamicArraySequence α) :=
  match pyget s.A (s.size - 1) with
  | none => .error s
  | some x =>
    match pyset s.A (s.size - 1) (none : Option α) with
    | none => .error s
    | some A2 =>
      let s2 := { s with A := A2, size := s.size - 1 }
      match resize s2 s2.size with
      | .error e => .error e
      | .ok s3 => .ok (x, s3)

/-- DynamicArraySequence.insert_at (lines 369-381): insert_last(None) grows
the sequence, then the suffix starting at i is shifted one slot right by the
aliased backward copy with count size - (i + 1) (evaluated after the
growth), and finally x is written at index i. -/
def insert_at (s : DynamicArraySequence α) (i : Int) (x : α) : Except (DynamicArraySequence α) (DynamicArraySequence α) :=
  match insert_last s none with
  | .error e => .error e
  | .ok s1 =>
    match copyBackwardSelf s1.A i (i + 1) (s1.size - (i + 1)).toNat with
    | .error A2 => .error { s1 with A := A2 }
    | .ok A2 =>
      match pyset A2 i x with
      | none => .error { s1 with A := A2 }
      | some A3 => .ok { s1 with A := A3 }

/-- DynamicArraySequence.delete_at (lines 383-394): read x = A[i], shift the
slots after i one slot left by the aliased forward copy with count
size - (i + 1), call delete_last (whose return value is discarded), and
return x. -/
def delete_at (s : DynamicArraySequence α) (i : Int) : Except (DynamicArraySequence α) (Option α × DynamicArraySequence α) :=
  match pyget s.A i with
  | none => .error s
  | some x =>
    match copyForwardSelf s.A (i + 1) i (s.size - (i + 1)).toNat with
    | .error A2 => .error { s with A := A2 }
    | .ok A2 =>
      match delete_last { s with A := A2 } with
      | .error e => .error e
      | .ok (_, s2) => .ok (x, s2)

/-- ArraySequence.get_at (lines 51-60), inherited by DynamicArraySequence:
`return self.A[i]`.  The returned value is the raw slot content, which may
be the None padding. -/
def get_at (s : DynamicArraySequence α) (i : Int) : Except (DynamicArraySequence α) (Option α) :=
  match pyget s.A i with
  | none => .error s
  | some v => .ok v

/-- ArraySequence.set_at (lines 62-70), inherited by DynamicArraySequence:
`self.A[i] = x`. -/
def set_at (s : DynamicArraySequence α) (i : Int) (x : Option α) : Except (DynamicArraySequence α) (DynamicArraySequence α) :=
  match pyset s.A i x with
  | none => .error s
  | some A2 => .ok { s with A := A2 }

/-- DynamicArraySequence.build (lines 313-316): `for a in X : self.insert_last(a)`.
Note the source does not clear the sequence first. -/
def build : DynamicArraySequence α → List α → Except (DynamicArraySequence α) (DynamicArraySequence α)
  | s, [] => .ok s
  | s, a :: rest =>
    match insert_last s (some a) with
    | .error e => .error e
    | .ok s1 => build s1 rest

end DynamicArraySequence

/-- SetPair (lines 405-411): a stored key-value record. -/
structure SetPair (K V : Type) where
  key : K
  value : V
deriving DecidableEq, Repr

/-- State of a Set object (lines 413-633): it owns one DynamicArraySequence
of SetPair records, constructed with the default growth factor r = 2.  The
class is called Set in the source; it is renamed here because Lean already
has a Set. -/
structure KVSet (K V : Type) where
  KV : DynamicArraySequence (SetPair K V)
deriving DecidableEq, Repr

namespace KVSet

open DynamicArraySequence

/-- Set.__init__ (lines 414-415): an empty DynamicArraySequence with the
default r = 2. -/
def mkSet : KVSet K V := ⟨mkDyn 2⟩

/-- Set.build (lines 428-436): map each tuple to a SetPair and call the
underlying DynamicArraySequence.build (which appends). -/
def build (s : KVSet K V) (X : List (K × V)) : Except (KVSet K V) (KVSet K V) :=
  match DynamicArraySequence.build s.KV (X.map fun t => SetPair.mk t.1 t.2) with
  | .error e => .error ⟨e⟩
  | .ok d => .ok ⟨d⟩

/-- Loop body of Set.insert (lines 438-452):
`for i in range(len(self.KV)) : if self.KV.get_at(i).key == pair.key : ...`.
The fuel is the remaining iteration count (range(len) evaluated once), i the
current index.  Reading a None padding slot and taking `.key` of it would be
an AttributeError; the loop never reaches padding because range stops at the
logical size, but the model keeps the case (error, state unchanged since
get_at does not mutate).  When the loop falls through, the pair is appended
with insert_last. -/
def insertLoop [DecidableEq K] (d : DynamicArraySequence (SetPair K V))
    (pair : SetPair K V) (i : Int) :
    Nat → Except (DynamicArraySequence (SetPair K V)) (DynamicArraySequence (SetPair K V))
  | 0 => insert_last d (some pair)
  | Nat.succ m =>
    match get_at d i with
    | .error e => .error e
    | .ok none => .error d
    | .ok (some kv) =>
      if kv.key = pair.key then set_at d i (some pair)
      else insertLoop d pair (i + 1) m

/-- Set.insert (lines 438-452): scan for an existing pair with the same key;
overwrite it in place with set_at, else append with insert_last. -/
def insert [DecidableEq K] (s : KVSet K V) (x : K × V) : Except (KVSet K V) (KVSet K V) :=
  match insertLoop s.KV (SetPair.mk x.1 x.2) 0 s.KV.size.toNat with
  | .error e => .error ⟨e⟩
  | .ok d => .ok ⟨d⟩

/-- Loop of Set.find in its default "tuple" mode (lines 454-477):
`for kv in self.KV : if kv.key == k : return (kv.key, kv.value)`.
Iteration runs over the raw backing list self.KV.A (ArraySequence.__iter__,
lines 41-42, yields from self.A), so it visits the None padding slots;
`kv.key` on None raises AttributeError, modelled by `.error ()`.  Falling
off the loop returns Python None, the not-found result. -/
def findLoop [DecidableEq K] (k : K) : List (Option (SetPair K V)) → Except Unit (Option (K × V))
  | [] => .ok none
  | none :: _ => .error ()
  | some kv :: rest =>
    if kv.key = k then .ok (some (kv.key, kv.value)) else findLoop k rest

/-- Set.find in its default "tuple" mode (lines 454-477). -/
def find [DecidableEq K] (s : KVSet K V) (k : K) : Except Unit (Option (K × V)) :=
  findLoop k s.KV.A

/-- Loop body of Set.delete (lines 479-489): scan for the first pair with
key k and call self.KV.delete_at(i) on it; if no pair matches, the method is
a no-op. -/
def deleteLoop [DecidableEq K] (d : DynamicArraySequence (SetPair K V))
    (k : K) (i : Int) :
    Nat → Except (DynamicArraySequence (SetPair K V)) (DynamicArraySequence (SetPair K V))
  | 0 => .ok d
  | Nat.succ m =>
    match get_at d i with
    | .error e => .error e
    | .ok none => .error d
    | .ok (some kv) =>
      if kv.key = k then
        match delete_at d i with
        | .error e => .error e
        | .ok (_, d2) => .ok d2
      else deleteLoop d k (i + 1) m

/-- Set.delete (lines 479-489). -/
def delete [DecidableEq K] (s : KVSet K V) (k : K) : Except (KVSet K V) (KVSet K V) :=
  match deleteLoop s.KV k 0 s.KV.size.toNat with
  | .error e => .error ⟨e⟩
  | .ok d => .ok ⟨d⟩

/-- Stable insertion used to model Python's sorted(): x is placed after
every element y of the already sorted list with le y x, so elements that
compare equal keep their original relative order. -/
def stableIns (le : β → β → Bool) (x : β) : List β → List β
  | [] => [x]
  | y :: ys => if le y x then y :: stableIns le x ys else x :: y :: ys

/-- Model of the Python builtin sorted(list, key = ..., reverse = ...): the
unique stable sort of the list under the total boolean order le.  Python's
timsort is specified to be stable, and a stable sort's output is determined
by that specification alone, so any stable sorting algorithm is a faithful
model; this one inserts each element in turn after its equals. -/
def pySorted (le : β → β → Bool) (l : List β) : List β :=
  l.foldl (fun acc x => stableIns le x acc) []

/-- Loop of Set._find_direction in its default "tuple" mode (lines 582-591):
`for index, kv_tuple in enumerate(tuple_result)` over the sorted list, where
a hit at a non-final index returns `tuple_list[index + 1]` - an access into
the original unsorted list - and reaching the final index returns None. -/
def findDirLoop (orig : List (K × V)) (k : K) (total : Nat) [DecidableEq K] :
    Nat → List (K × V) → Option (K × V)
  | _, [] => none
  | index, kv :: rest =>
    if kv.1 = k ∧ index < total - 1 then orig[index + 1]?
    else if index = total - 1 then none
    else findDirLoop orig k total (index + 1) rest

/-- Set._find_direction in its default "tuple" mode (lines 564-599):
tuple_list collects the non-None slots of the backing buffer in storage
order, tuple_result is tuple_list sorted by key (descending when reverse),
and the loop above scans tuple_result.  In the loop a hit at a non-final
index returns tuple_list[index + 1]; that access is always in range because
index + 1 < total = tuple_result.length = tuple_list.length, so the Option
returned by the safe lookup is always some there and no IndexError case is
lost. -/
def findDirection [LinearOrder K] (s : KVSet K V) (k : K) (reverse : Bool) : Option (K × V) :=
  let tl := s.KV.A.filterMap (fun o => o.map fun kv => (kv.key, kv.value))
  let tr := if reverse then pySorted (fun a b => decide (b.1 ≤ a.1)) tl
            else pySorted (fun a b => decide (a.1 ≤ b.1)) tl
  findDirLoop tl k tr.length 0 tr

/-- Set.find_next (lines 601-616): _find_direction with reverse = False. -/
def find_next [LinearOrder K] (s : KVSet K V) (k : K) : Option (K × V) :=
  findDirection s k false

/-- Set.find_prev (lines 618-633): _find_direction with reverse = True. -/
def find_prev [LinearOrder K] (s : KVSet K V) (k : K) : Option (K × V) :=
  findDirection s k true

end KVSet

/-! Operation sequences over a DynamicArraySequence, used to state the
invariant claims about arbitrary runs of the public mutating interface. -/

/-- One public mutating call on a DynamicArraySequence: insert_last(x),
insert_at(i, x), delete_last(), delete_at(i).  (insert_first and
delete_first are insert_at 0 and delete_at 0, lines 396-400.) -/
inductive DOp (α : Type) where
  | insLast : α → DOp α
  | insAt : Int → α → DOp α
  | delLast : DOp α
  | delAt : Int → DOp α
deriving DecidableEq, Repr

namespace DOp

open DynamicArraySequence

/-- Execute one operation, propagating a raise. -/
def applyOp (s : DynamicArraySequence α) : DOp α → Except (DynamicArraySequence α) (DynamicArraySequence α)
  | .insLast x => insert_last s (some x)
  | .insAt i x => insert_at s i x
  | .delLast =>
    match delete_last s with
    | .error e => .error e
    | .ok (_, s2) => .ok s2
  | .delAt i =>
    match delete_at s i with
    | .error e => .error e
    | .ok (_, s2) => .ok s2

/-- Execute a list of operations in order. -/
def applyOps : DynamicArraySequence α → List (DOp α) → Except (DynamicArraySequence α) (DynamicArraySequence α)
  | s, [] => .ok s
  | s, op :: ops =>
    match applyOp s op with
    | .error e => .error e
    | .ok s2 => applyOps s2 ops

/-- Abstract effect of one operation on the list of live slots (the slots
at logical indices 0 .. size-1). -/
def absOp (l : List (Option α)) : DOp α → List (Option α)
  | .insLast x => l ++ [some x]
  | .insAt i x => l.take i.toNat ++ some x :: l.drop i.toNat
  | .delLast => l.take (l.length - 1)
  | .delAt i => l.take i.toNat ++ l.drop (i.toNat + 1)

/-- Abstract effect of a list of operations. -/
def absOps : List (Option α) → List (DOp α) → List (Option α)
  | l, [] => l
  | l, op :: ops => absOps (absOp l op) ops

/-- Validity of one operation against the current logical content: indices
must lie in the range documented by the spec (0 <= i <= size for insert_at,
0 <= i < size for delete_at, nonempty for delete_last). -/
def validOp (len : Nat) : DOp α → Bool
  | .insLast _ => true
  | .insAt i _ => decide (0 ≤ i ∧ i ≤ (len : Int))
  | .delLast => decide (1 ≤ len)
  | .delAt i => decide (0 ≤ i ∧ i < (len : Int))

/-- Validity of a whole operation sequence, tracking the abstract state. -/
def validSeq : List (Option α) → List (DOp α) → Bool
  | _, [] => true
  | l, op :: ops => validOp l.length op && validSeq (absOp l op) ops

/-- Number of insertions in an operation sequence. -/
def insCount : List (DOp α) → Nat
  | [] => 0
  | .insLast _ :: ops => insCount ops + 1
  | .insAt _ _ :: ops => insCount ops + 1
  | .delLast :: ops => insCount ops
  | .delAt _ :: ops => insCount ops

/-- Number of deletions in an operation sequence. -/
def delCount : List (DOp α) → Nat
  | [] => 0
  | .insLast _ :: ops => delCount ops
  | .insAt _ _ :: ops => delCount ops
  | .delLast :: ops => delCount ops + 1
  | .delAt _ :: ops => delCount ops + 1

end DOp

/-- States reachable from a freshly constructed DynamicArraySequence (growth
factor at least 1) through any succession of insert_last and delete_last
calls that return normally. -/
inductive Reach : DynamicArraySequence α → Prop where
  | init (r : Nat) (hr : 1 ≤ r) : Reach (DynamicArraySequence.mkDyn r)
  | insStep (s s' : DynamicArraySequence α) (x : Option α) (hs : Reach s)
      (h : DynamicArraySequence.insert_last s x = .ok s') : Reach s'
  | delStep (s s' : DynamicArraySequence α) (x : Option α) (hs : Reach s)
      (h : DynamicArraySequence.delete_last s = .ok (x, s')) : Reach s'

/-! Abstract key-value operations, used to state the Set claims. -/

/-- Effect of Set.insert on the list of stored pairs: overwrite the first
pair with the matching key in place, or append when no key matches. -/
def upsert [DecidableEq K] (p : SetPair K V) : List (SetPair K V) → List (SetPair K V)
  | [] => [p]
  | q :: qs => if q.key = p.key then p :: qs else q :: upsert p qs

/-- Effect of Set.delete on the list of stored pairs: remove the first pair
with the matching key, or leave the list unchanged. -/
def removeFirstKey [DecidableEq K] (k : K) : List (SetPair K V) → List (SetPair K V)
  | [] => []
  | q :: qs => if q.key = k then qs else q :: removeFirstKey k qs

/-- One public mutating call on a Set. -/
inductive SOp (K V : Type) where
  | ins : K × V → SOp K V
  | del : K → SOp K V
deriving DecidableEq, Repr

namespace SOp

/-- Execute one Set operation. -/
def applySOp [DecidableEq K] (s : KVSet K V) : SOp K V → Except (KVSet K V) (KVSet K V)
  | .ins x => KVSet.insert s x
  | .del k => KVSet.delete s k

/-- Execute a list of Set operations in order. -/
def applySOps [DecidableEq K] : KVSet K V → List (SOp K V) → Except (KVSet K V) (KVSet K V)
  | s, [] => .ok s
  | s, op :: ops =>
    match applySOp s op with
    | .error e => .error e
    | .ok s2 => applySOps s2 ops

/-- Abstract effect of one Set operation on the list of stored pairs. -/
def absSOp [DecidableEq K] (ps : List (SetPair K V)) : SOp K V → List (SetPair K V)
  | .ins (k, v) => upsert (SetPair.mk k v) ps
  | .del k => removeFirstKey k ps

/-- Abstract effect of a list of Set operations. -/
def absSOps [DecidableEq K] : List (SetPair K V) → List (SOp K V) → List (SetPair K V)
  | ps, [] => ps
  | ps, op :: ops => absSOps (absSOp ps op) ops

end SOp

/-- Representation predicate tying a DynamicArraySequence state to the list
of its live slots: the logical size equals the number of live slots, the
backing buffer is the live slots followed by None padding, and the cached
bounds agree with _compute_bounds on the current buffer.  Every state
produced by the constructor and the valid public operations satisfies it. -/
def Rep (s : DynamicArraySequence α) (ols : List (Option α)) : Prop :=
  s.size = (ols.length : Int) ∧
  s.A = ols ++ List.replicate (s.A.length - ols.length) (none : Option α) ∧
  ols.length ≤ s.A.length ∧
  s.upper = s.A.length ∧
  s.lower = s.A.length / (s.r * s.r)

instance [DecidableEq α] (s : DynamicArraySequence α) (ols : List (Option α)) :
    Decidable (Rep s ols) := by
  unfold Rep; infer_instance

/-- Representation predicate for a Set: its sequence represents exactly the
stored pairs (each wrapped in some), with the default growth factor 2. -/
def SRep (s : KVSet K V) (ps : List (SetPair K V)) : Prop :=
  Rep s.KV (ps.map some) ∧ s.KV.r = 2

instance [DecidableEq K] [DecidableEq V] (s : KVSet K V) (ps : List (SetPair K V)) :
    Decidable (SRep s ps) := by
  unfold SRep; infer_instance

/-- Well-formedness maintained by insert_last and delete_last along every
normally returning call sequence: the cached upper bound equals the physical
capacity, and the logical size either is a valid prefix length or, on the
degenerate sequences where delete_last has driven it negative, stays above
-r while the capacity is exactly r. -/
def SafeState (s : DynamicArraySequence α) : Prop :=
  1 ≤ s.r ∧ s.upper = s.A.length ∧
  ((0 ≤ s.size ∧ s.size.toNat ≤ s.A.length) ∨
   (s.size < 0 ∧ -(s.r : Int) ≤ s.size ∧ s.A.length = s.r))

/-! Lemmas about the Python indexing primitives. -/

theorem pyIdx_nonneg {len : Nat} {i : Int} (h0 : 0 ≤ i) (h1 : i < (len : Int)) :
    pyIdx len i = some i.toNat := by
  unfold pyIdx
  rw [if_pos ⟨h0, h1⟩]

theorem pyIdx_negIdx {len : Nat} {i : Int} (h0 : -(len : Int) ≤ i) (h1 : i < 0) :
    pyIdx len i = some (i + len).toNat := by
  unfold pyIdx
  rw [if_neg (by omega), if_pos ⟨h0, h1⟩]

theorem pyIdx_oob {len : Nat} {i : Int} (h : i < -(len : Int) ∨ (len : Int) ≤ i) :
    pyIdx len i = none := by
  unfold pyIdx
  rw [if_neg (by omega), if_neg (by omega)]

theorem pyIdx_isSome {len : Nat} {i : Int} (h0 : -(len : Int) ≤ i) (h1 : i < (len : Int)) :
    ∃ j, pyIdx len i = some j ∧ j < len := by
  rcases le_or_lt 0 i with h | h
  · exact ⟨i.toNat, pyIdx_nonneg h h1, by omega⟩
  · exact ⟨(i + len).toNat, pyIdx_negIdx h0 h, by omega⟩

theorem pyget_nat {A : List β} {n : Nat} (h : n < A.length) :
    pyget A (n : Int) = some A[n] := by
  unfold pyget
  rw [pyIdx_nonneg (by omega) (by exact_mod_cast h)]
  simp [List.getElem?_eq_getElem h]

theorem pyget_inrange {A : List β} {i : Int}
    (h0 : -(A.length : Int) ≤ i) (h1 : i < (A.length : Int)) :
    ∃ v, pyget A i = some v := by
  obtain ⟨j, hj, hlt⟩ := pyIdx_isSome h0 h1
  exact ⟨A[j], by unfold pyget; rw [hj]; simp [List.getElem?_eq_getElem hlt]⟩

theorem pyget_oob {A : List β} {i : Int}
    (h : i < -(A.length : Int) ∨ (A.length : Int) ≤ i) :
    pyget A i = none := by
  unfold pyget
  rw [pyIdx_oob h]
  rfl

theorem pyset_nat {A : List β} {n : Nat} (h : n < A.length) (v : β) :
    pyset A (n : Int) v = some (A.set n v) := by
  unfold pyset
  rw [pyIdx_nonneg (by omega) (by exact_mod_cast h)]
  simp

theorem pyset_inrange {A : List β} {i : Int}
    (h0 : -(A.length : Int) ≤ i) (h1 : i < (A.length : Int)) (v : β) :
    ∃ A2, pyset A i v = some A2 ∧ A2.length = A.length := by
  obtain ⟨j, hj, hlt⟩ := pyIdx_isSome h0 h1
  exact ⟨A.set j v, by unfold pyset; rw [hj]; rfl, by simp⟩

theorem pyset_oob {A : List β} {i : Int}
    (h : i < -(A.length : Int) ∨ (A.length : Int) ≤ i) (v : β) :
    pyset A i v = none := by
  unfold pyset
  rw [pyIdx_oob h]
  rfl

theorem pyset_length {A A2 : List β} {i : Int} {v : β} (h : pyset A i v = some A2) :
    A2.length = A.length := by
  unfold pyset at h
  cases hj : pyIdx A.length i with
  | none => rw [hj] at h; cases h
  | some j => rw [hj] at h; cases h; simp

/-! Specifications of the copy loops. -/

theorem copyForwardSep_spec (src : List β) (n : Nat) :
    ∀ (i j : Nat) (dst : List β), i + n ≤ src.length → j + n ≤ dst.length →
      ∃ out, copyForwardSep src (i : Int) dst (j : Int) n = .ok out ∧
        out.length = dst.length ∧
        ∀ p : Nat, out[p]? = if j ≤ p ∧ p < j + n then src[i + (p - j)]? else dst[p]? := by
  induction n with
  | zero =>
    intro i j dst _ _
    exact ⟨dst, rfl, rfl, fun p => by rw [if_neg (by omega)]⟩
  | succ m ih =>
    intro i j dst h1 h2
    have hi : i < src.length := by omega
    have hj : j < dst.length := by omega
    have hstep : copyForwardSep src (i : Int) dst (j : Int) (m + 1) =
        copyForwardSep src ((i + 1 : Nat) : Int) (dst.set j src[i]) ((j + 1 : Nat) : Int) m := by
      simp only [copyForwardSep, pyget_nat hi, pyset_nat hj]
      norm_num
    obtain ⟨out, hout, hlen, hpt⟩ :=
      ih (i + 1) (j + 1) (dst.set j src[i]) (by omega) (by simpa using (by omega : j + 1 + m ≤ dst.length))
    refine ⟨out, by rw [hstep, hout], by simpa using hlen, fun p => ?_⟩
    have hp := hpt p
    by_cases hc : j + 1 ≤ p ∧ p < j + 1 + m
    · rw [if_pos hc] at hp
      rw [hp, if_pos (by omega)]
      congr 1
      omega
    · rw [if_neg hc] at hp
      rw [hp, List.getElem?_set]
      by_cases hpj : j = p
      · subst hpj
        rw [if_pos rfl, if_pos hj, if_pos (by omega)]
        rw [show i + (j - j) = i by omega, List.getElem?_eq_getElem hi]
      · rw [if_neg hpj, if_neg (by omega)]

theorem copyBackwardSelf_succ (A : List β) (i j : Int) (m : Nat) :
    copyBackwardSelf A i j (m + 1) =
      match pyget A (i + m) with
      | none => .error A
      | some v =>
        match pyset A (j + m) v with
        | none => .error A
        | some A2 => copyBackwardSelf A2 i j m := rfl

theorem copyForwardSelf_spec (n : Nat) :
    ∀ (i j : Nat) (A : List β), j ≤ i → i + n ≤ A.length →
      ∃ out, copyForwardSelf A (i : Int) (j : Int) n = .ok out ∧
        out.length = A.length ∧
        ∀ p : Nat, out[p]? = if j ≤ p ∧ p < j + n then A[i + (p - j)]? else A[p]? := by
  induction n with
  | zero =>
    intro i j A _ _
    exact ⟨A, rfl, rfl, fun p => by rw [if_neg (by omega)]⟩
  | succ m ih =>
    intro i j A hji h1
    have hi : i < A.length := by omega
    have hj : j < A.length := by omega
    have hstep : copyForwardSelf A (i : Int) (j : Int) (m + 1) =
        copyForwardSelf (A.set j A[i]) ((i + 1 : Nat) : Int) ((j + 1 : Nat) : Int) m := by
      simp only [copyForwardSelf, pyget_nat hi, pyset_nat hj]
      norm_num
    obtain ⟨out, hout, hlen, hpt⟩ :=
      ih (i + 1) (j + 1) (A.set j A[i]) (by omega) (by simpa using (by omega : i + 1 + m ≤ A.length))
    refine ⟨out, by rw [hstep, hout], by simpa using hlen, fun p => ?_⟩
    have hp := hpt p
    by_cases hc : j + 1 ≤ p ∧ p < j + 1 + m
    · rw [if_pos hc] at hp
      rw [hp, if_pos (by omega), List.getElem?_set, if_neg (by omega)]
      congr 1
      omega
    · rw [if_neg hc] at hp
      rw [hp, List.getElem?_set]
      by_cases hpj : j = p
      · subst hpj
        rw [if_pos rfl, if_pos hj, if_pos (by omega)]
        rw [show i + (j - j) = i by omega, List.getElem?_eq_getElem hi]
      · rw [if_neg hpj, if_neg (by omega)]

theorem copyBackwardSelf_spec (n : Nat) :
    ∀ (i j : Nat) (A : List β), i ≤ j → j + n ≤ A.length →
      ∃ out, copyBackwardSelf A (i : Int) (j : Int) n = .ok out ∧
        out.length = A.length ∧
        ∀ p : Nat, out[p]? = if j ≤ p ∧ p < j + n then A[i + (p - j)]? else A[p]? := by
  induction n with
  | zero =>
    intro i j A _ _
    exact ⟨A, rfl, rfl, fun p => by rw [if_neg (by omega)]⟩
  | succ m ih =>
    intro i j A hij h1
    have him : i + m < A.length := by omega
    have hjm : j + m < A.length := by omega
    have hstep : copyBackwardSelf A (i : Int) (j : Int) (m + 1) =
        copyBackwardSelf (A.set (j + m) A[i + m]) (i : Int) (j : Int) m := by
      rw [copyBackwardSelf_succ]
      rw [show (i : Int) + (m : Nat) = ((i + m : Nat) : Int) by push_cast; ring]
      rw [pyget_nat him]
      show (match pyset A ((j : Int) + (m : Nat)) A[i + m] with
        | none => Except.error A
        | some A2 => copyBackwardSelf A2 (i : Int) (j : Int) m) = _
      rw [show (j : Int) + (m : Nat) = ((j + m : Nat) : Int) by push_cast; ring]
      rw [pyset_nat hjm]
    obtain ⟨out, hout, hlen, hpt⟩ :=
      ih i j (A.set (j + m) A[i + m]) hij (by simpa using (by omega : j + m ≤ A.length))
    refine ⟨out, by rw [hstep, hout], by simpa using hlen, fun p => ?_⟩
    have hp := hpt p
    by_cases hc : j ≤ p ∧ p < j + m
    · rw [if_pos hc] at hp
      rw [hp, if_pos (by omega), List.getElem?_set, if_neg (by omega)]
    · rw [if_neg hc] at hp
      rw [hp, List.getElem?_set]
      by_cases hpj : j + m = p
      · rw [if_pos hpj, if_pos hjm, if_pos (by omega)]
        rw [show i + (p - j) = i + m by omega, List.getElem?_eq_getElem him]
      · rw [if_neg hpj, if_neg (by omega)]

theorem copyForwardSelf_ok (n : Nat) :
    ∀ (i j : Int) (A : List β),
      (∀ k : Nat, k < n → -(A.length : Int) ≤ i + k ∧ i + k < (A.length : Int) ∧
        -(A.length : Int) ≤ j + k ∧ j + k < (A.length : Int)) →
      ∃ out, copyForwardSelf A i j n = .ok out ∧ out.length = A.length := by
  induction n with
  | zero => intro i j A _; exact ⟨A, rfl, rfl⟩
  | succ m ih =>
    intro i j A h
    obtain ⟨hi0, hi1, hj0, hj1⟩ := h 0 (by omega)
    simp only [Nat.cast_zero, add_zero] at hi0 hi1 hj0 hj1
    obtain ⟨v, hv⟩ := pyget_inrange hi0 hi1
    obtain ⟨A2, hA2, hlen2⟩ := pyset_inrange hj0 hj1 v
    obtain ⟨out, hout, hlen⟩ := ih (i + 1) (j + 1) A2 (by
      intro k hk
      have hh := h (k + 1) (by omega)
      rw [hlen2]
      push_cast at hh ⊢
      omega)
    refine ⟨out, ?_, by rw [hlen, hlen2]⟩
    simp only [copyForwardSelf, hv, hA2]
    exact hout

theorem copyBackwardSelf_ok (n : Nat) :
    ∀ (i j : Int) (A : List β),
      (∀ k : Nat, k < n → -(A.length : Int) ≤ i + k ∧ i + k < (A.length : Int) ∧
        -(A.length : Int) ≤ j + k ∧ j + k < (A.length : Int)) →
      ∃ out, copyBackwardSelf A i j n = .ok out ∧ out.length = A.length := by
  induction n with
  | zero => intro i j A _; exact ⟨A, rfl, rfl⟩
  | succ m ih =>
    intro i j A h
    obtain ⟨hi0, hi1, hj0, hj1⟩ := h m (by omega)
    obtain ⟨v, hv⟩ := pyget_inrange hi0 hi1
    obtain ⟨A2, hA2, hlen2⟩ := pyset_inrange hj0 hj1 v
    obtain ⟨out, hout, hlen⟩ := ih i j A2 (by
      intro k hk
      rw [hlen2]
      exact h k (by omega))
    refine ⟨out, ?_, by rw [hlen, hlen2]⟩
    rw [copyBackwardSelf_succ, hv]
    show (match pyset A (j + (m : Int)) v with
      | none => Except.error A
      | some A2 => copyBackwardSelf A2 i j m) = _
    rw [hA2]
    exact hout

theorem copyBackwardSelf_err (n : Nat) :
    ∀ (i j : Int) (A : List β), 1 ≤ n → i < -(A.length : Int) →
      ∃ e, copyBackwardSelf A i j n = .error e := by
  induction n with
  | zero => intro i j A h _; omega
  | succ m ih =>
    intro i j A _ hoob
    rw [copyBackwardSelf_succ]
    cases hg : pyget A (i + (m : Int)) with
    | none => exact ⟨A, rfl⟩
    | some v =>
      cases hs : pyset A (j + (m : Int)) v with
      | none =>
        refine ⟨A, ?_⟩
        show (match pyset A (j + (m : Int)) v with
          | none => Except.error A
          | some A2 => copyBackwardSelf A2 i j m) = _
        rw [hs]
      | some A2 =>
        cases m with
        | zero =>
          rw [show i + ((0 : Nat) : Int) = i by push_cast; ring, pyget_oob (Or.inl (by omega))] at hg
          cases hg
        | succ m' =>
          obtain ⟨e, he⟩ := ih i j A2 (by omega) (by rw [pyset_length hs]; exact hoob)
          refine ⟨e, ?_⟩
          show (match pyset A (j + ((m' + 1 : Nat) : Int)) v with
            | none => Except.error A
            | some A2 => copyBackwardSelf A2 i j (m' + 1)) = _
          rw [hs]
          exact he

/-! Representation lemmas for the DynamicArraySequence operations. -/

open DynamicArraySequence

theorem set_append_left (l1 l2 : List β) (i : Nat) (x : β) (h : i < l1.length) :
    (l1 ++ l2).set i x = l1.set i x ++ l2 := by
  rw [List.set_append, if_pos h]

theorem pad_set_end (ols : List (Option α)) (c : Nat) (x : Option α) (h : ols.length < c) :
    (ols ++ List.replicate (c - ols.length) (none : Option α)).set ols.length x =
      (ols ++ [x]) ++ List.replicate (c - (ols.length + 1)) (none : Option α) := by
  rw [show c - ols.length = (c - (ols.length + 1)) + 1 by omega, List.replicate_succ,
    List.set_append, if_neg (by omega), Nat.sub_self]
  simp

theorem resize_rep {s : DynamicArraySequence α} {ols : List (Option α)} (h : Rep s ols)
    (n : Int)
    (hm : ¬((s.lower : Int) < n ∧ n < (s.upper : Int)) → ols.length ≤ (max n 1).toNat * s.r) :
    ∃ s', resize s n = .ok s' ∧ Rep s' ols ∧ s'.size = s.size ∧ s'.r = s.r ∧
      s'.A.length = if (s.lower : Int) < n ∧ n < (s.upper : Int) then s.A.length
                    else (max n 1).toNat * s.r := by
  obtain ⟨hsz, hA, hle, hup, hlo⟩ := h
  by_cases hc : (s.lower : Int) < n ∧ n < (s.upper : Int)
  · refine ⟨s, ?_, ⟨hsz, hA, hle, hup, hlo⟩, rfl, rfl, by rw [if_pos hc]⟩
    unfold resize
    rw [if_pos hc]
  · have hm' := hm hc
    have hfuel : s.size.toNat = ols.length := by omega
    obtain ⟨out, hout, hlen, hpt⟩ := copyForwardSep_spec s.A ols.length 0 0
      (List.replicate ((max n 1).toNat * s.r) (none : Option α))
      (by omega) (by simpa using hm')
    simp only [Nat.cast_zero] at hout
    have hlenout : out.length = (max n 1).toNat * s.r := by simpa using hlen
    have hout_eq : out = ols ++ List.replicate ((max n 1).toNat * s.r - ols.length) (none : Option α) := by
      apply List.ext_getElem?
      intro p
      have hp := hpt p
      simp only [Nat.zero_add, Nat.sub_zero, Nat.zero_le, true_and] at hp
      rw [hp]
      rcases lt_or_ge p ols.length with h1 | h1
      · rw [if_pos h1, hA, List.getElem?_append, if_pos h1, List.getElem?_append, if_pos h1]
      · rw [if_neg (show ¬ p < ols.length by omega)]
        rw [List.getElem?_replicate]
        rw [List.getElem?_append]
        rw [if_neg (show ¬ p < ols.length by omega)]
        rw [List.getElem?_replicate]
        by_cases h2 : p < (max n 1).toNat * s.r
        · rw [if_pos h2,
            if_pos (show p - ols.length < (max n 1).toNat * s.r - ols.length by omega)]
        · rw [if_neg h2,
            if_neg (show ¬ p - ols.length < (max n 1).toNat * s.r - ols.length by omega)]
    refine ⟨computeBounds { s with A := out }, ?_, ?_, rfl, rfl, ?_⟩
    · unfold resize
      rw [if_neg hc]
      show (match copyForwardSep s.A 0 (List.replicate ((max n 1).toNat * s.r) (none : Option α)) 0
          s.size.toNat with
        | .error _ => Except.error s
        | .ok Anew => Except.ok (computeBounds { s with A := Anew })) = _
      rw [hfuel, hout]
    · refine ⟨hsz, ?_, ?_, rfl, rfl⟩
      · show out = ols ++ List.replicate (out.length - ols.length) (none : Option α)
        rw [hlenout]
        exact hout_eq
      · show ols.length ≤ out.length
        rw [hlenout]
        omega
    · show out.length = _
      rw [hlenout, if_neg hc]

theorem insert_last_rep {s : DynamicArraySequence α} {ols : List (Option α)}
    (h : Rep s ols) (hr : 1 ≤ s.r) (x : Option α) :
    ∃ s', insert_last s x = .ok s' ∧ Rep s' (ols ++ [x]) ∧ s'.r = s.r ∧
      s'.A.length = if (s.lower : Int) < s.size + 1 ∧ s.size + 1 < (s.upper : Int)
                    then s.A.length else (ols.length + 1) * s.r := by
  have hsz := h.1
  have hup := h.2.2.2.1
  have hmax : (max (s.size + 1) 1).toNat = ols.length + 1 := by
    rw [max_eq_left (by omega)]
    omega
  have hmul : ols.length + 1 ≤ (ols.length + 1) * s.r := by
    have := Nat.mul_le_mul_left (ols.length + 1) hr
    omega
  obtain ⟨s1, hres, hrep1, hsz1, hr1, hlen1⟩ := resize_rep h (s.size + 1)
    (fun _ => by rw [hmax]; omega)
  rw [hmax] at hlen1
  obtain ⟨hsz1', hA1, hle1, hup1, hlo1⟩ := hrep1
  have hlt : ols.length < s1.A.length := by
    rw [hlen1]
    split_ifs with hcc
    · omega
    · omega
  have hset : pyset s1.A s1.size x =
      some ((ols ++ [x]) ++ List.replicate (s1.A.length - (ols.length + 1)) (none : Option α)) := by
    have he : s1.size = ((ols.length : Nat) : Int) := by rw [hsz1]; exact_mod_cast hsz
    rw [he, pyset_nat hlt x]
    congr 1
    conv_lhs => rw [hA1]
    rw [pad_set_end ols s1.A.length x hlt]
  refine ⟨{ s1 with
      A := (ols ++ [x]) ++ List.replicate (s1.A.length - (ols.length + 1)) (none : Option α),
      size := s1.size + 1 }, ?_, ?_, hr1, ?_⟩
  · show insert_last s x = _
    unfold insert_last
    rw [hres]
    show (match pyset s1.A s1.size x with
      | none => Except.error s1
      | some A2 => Except.ok { s1 with A := A2, size := s1.size + 1 }) = _
    rw [hset]
  · refine ⟨?_, ?_, ?_, ?_, ?_⟩
    · show s1.size + 1 = _
      simp only [List.length_append, List.length_singleton]
      push_cast
      omega
    · show (ols ++ [x]) ++ List.replicate (s1.A.length - (ols.length + 1)) (none : Option α) =
        (ols ++ [x]) ++ List.replicate
          (((ols ++ [x]) ++ List.replicate (s1.A.length - (ols.length + 1)) (none : Option α)).length
            - (ols ++ [x]).length) (none : Option α)
      congr 2
      simp only [List.length_append, List.length_singleton, List.length_replicate]
      omega
    · show (ols ++ [x]).length ≤ _
      simp only [List.length_append, List.length_singleton, List.length_replicate]
      omega
    · show s1.upper = _
      simp only [List.length_append, List.length_singleton, List.length_replicate]
      omega
    · show s1.lower = _
      simp only [List.length_append, List.length_singleton, List.length_replicate, hr1]
      rw [hlo1, hr1]
      congr 1
      omega
  · show ((ols ++ [x]) ++ List.replicate (s1.A.length - (ols.length + 1)) (none : Option α)).length = _
    simp only [List.length_append, List.length_singleton, List.length_replicate]
    rw [hlen1]
    split_ifs with hcc
    · omega
    · omega

theorem toNat_max_one (k : Nat) : (max ((k : Nat) : Int) 1).toNat = max k 1 := by
  rcases Nat.eq_zero_or_pos k with h | h
  · subst h
    simp
  · rw [max_eq_left (show (1 : Int) ≤ (k : Int) by exact_mod_cast h), max_eq_left h]
    omega

theorem pad_unset_last (ols0 : List (Option α)) (a : Option α) (c : Nat)
    (h : ols0.length + 1 ≤ c) :
    ((ols0 ++ [a]) ++ List.replicate (c - (ols0.length + 1)) (none : Option α)).set ols0.length
        (none : Option α) =
      ols0 ++ List.replicate (c - ols0.length) (none : Option α) := by
  rw [List.append_assoc, List.set_append, if_neg (by omega), Nat.sub_self]
  rw [show ([a] ++ List.replicate (c - (ols0.length + 1)) (none : Option α)).set 0 none =
      none :: List.replicate (c - (ols0.length + 1)) (none : Option α) by rfl]
  rw [show c - ols0.length = (c - (ols0.length + 1)) + 1 by omega, List.replicate_succ]

theorem rep_of_shape {A' : List (Option α)} {sz : Int} {r up lo : Nat}
    {ols : List (Option α)} {c : Nat} (hc : ols.length ≤ c) (hsz : sz = (ols.length : Int))
    (hA : A' = ols ++ List.replicate (c - ols.length) (none : Option α))
    (hup : up = c) (hlo : lo = c / (r * r)) :
    Rep (DynamicArraySequence.mk A' sz r up lo) ols := by
  have hlen : A'.length = c := by
    rw [hA]
    simp only [List.length_append, List.length_replicate]
    omega
  exact ⟨hsz, by rw [hlen, hA], by rw [hlen]; exact hc, by rw [hlen]; exact hup,
    by rw [hlen]; exact hlo⟩

theorem get_at_rep {s : DynamicArraySequence α} {ols : List (Option α)} (h : Rep s ols)
    {i : Nat} (hi : i < ols.length) :
    get_at s (i : Nat) = .ok ols[i] := by
  obtain ⟨hsz, hA, hle, hup, hlo⟩ := h
  have hlt : i < s.A.length := by omega
  have hq : s.A[i]? = some ols[i] := by
    conv_lhs => rw [hA]
    rw [List.getElem?_append, if_pos hi, List.getElem?_eq_getElem hi]
  have hval : s.A[i] = ols[i] := by
    have h2 := List.getElem?_eq_getElem hlt
    rw [hq] at h2
    exact (Option.some.injEq _ _).mp h2.symm
  unfold get_at
  rw [pyget_nat hlt, hval]

theorem set_at_rep {s : DynamicArraySequence α} {ols : List (Option α)} (h : Rep s ols)
    {i : Nat} (hi : i < ols.length) (x : Option α) :
    ∃ s', set_at s (i : Nat) x = .ok s' ∧ Rep s' (ols.set i x) ∧ s'.r = s.r ∧
      s'.size = s.size ∧ s'.A.length = s.A.length ∧ s'.upper = s.upper ∧ s'.lower = s.lower := by
  obtain ⟨hsz, hA, hle, hup, hlo⟩ := h
  have hlt : i < s.A.length := by omega
  have hseteq : s.A.set i x =
      ols.set i x ++ List.replicate (s.A.length - ols.length) (none : Option α) := by
    conv_lhs => rw [hA]
    rw [set_append_left _ _ _ _ hi]
  refine ⟨{ s with A := ols.set i x ++ List.replicate (s.A.length - ols.length) (none : Option α) },
    ?_, ?_, rfl, rfl, ?_, rfl, rfl⟩
  · unfold set_at
    rw [pyset_nat hlt x, hseteq]
  · exact rep_of_shape (c := s.A.length) (by simpa using hle)
      (by simpa using hsz) (by rw [List.length_set]) (by simpa using hup) (by simpa using hlo)
  · simp only [List.length_append, List.length_set, List.length_replicate]
    omega

theorem delete_last_rep {s : DynamicArraySequence α} {ols0 : List (Option α)} {a : Option α}
    (h : Rep s (ols0 ++ [a])) (hr : 1 ≤ s.r) :
    ∃ s', delete_last s = .ok (a, s') ∧ Rep s' ols0 ∧ s'.r = s.r ∧
      s'.A.length = if (s.lower : Int) < s.size - 1 ∧ s.size - 1 < (s.upper : Int)
                    then s.A.length else (max ols0.length 1) * s.r := by
  obtain ⟨hsz, hA, hle, hup, hlo⟩ := h
  simp only [List.length_append, List.length_singleton] at hsz hle hA
  have hlt : ols0.length < s.A.length := by omega
  have hidx : s.size - 1 = ((ols0.length : Nat) : Int) := by omega
  have hval : s.A[ols0.length] = a := by
    have hq : s.A[ols0.length]? = some a := by
      conv_lhs => rw [hA]
      rw [List.append_assoc, List.getElem?_append, if_neg (by omega), Nat.sub_self]
      simp
    have h2 := List.getElem?_eq_getElem hlt
    rw [hq] at h2
    exact (Option.some.injEq _ _).mp h2.symm
  have hset : pyset s.A (s.size - 1) (none : Option α) =
      some (ols0 ++ List.replicate (s.A.length - ols0.length) (none : Option α)) := by
    rw [hidx, pyset_nat hlt]
    congr 1
    conv_lhs => rw [hA]
    exact pad_unset_last ols0 a s.A.length (by omega)
  have hrep2 : Rep { s with
      A := ols0 ++ List.replicate (s.A.length - ols0.length) (none : Option α),
      size := s.size - 1 } ols0 :=
    rep_of_shape (c := s.A.length) (by omega) (by omega) rfl hup hlo
  obtain ⟨s3, hres, hrep3, hsz3, hr3, hlen3⟩ := resize_rep hrep2 (s.size - 1) (by
    intro _
    dsimp only
    rw [hidx, toNat_max_one]
    have h2 : max ols0.length 1 * 1 ≤ max ols0.length 1 * s.r := Nat.mul_le_mul_left _ hr
    have h3 : ols0.length ≤ max ols0.length 1 := le_max_left _ _
    omega)
  refine ⟨s3, ?_, hrep3, by simpa using hr3, ?_⟩
  · unfold delete_last
    rw [hidx, pyget_nat hlt, hval]
    rw [← hidx, hset]
    show (match resize { s with
        A := ols0 ++ List.replicate (s.A.length - ols0.length) (none : Option α),
        size := s.size - 1 } (s.size - 1) with
      | .error e => Except.error e
      | .ok s3 => Except.ok (a, s3)) = _
    rw [hres]
  · rw [hlen3]
    dsimp only
    simp only [List.length_append, List.length_replicate]
    rw [hidx, toNat_max_one]
    split_ifs with hc1
    · omega
    · rfl

theorem getElem?_pad (l1 : List (Option α)) (k p : Nat) :
    (l1 ++ List.replicate k (none : Option α))[p]? =
      if p < l1.length then l1[p]? else if p < l1.length + k then some (none : Option α) else none := by
  rw [List.getElem?_append]
  by_cases h1 : p < l1.length
  · rw [if_pos h1, if_pos h1]
  · rw [if_neg h1, if_neg h1, List.getElem?_replicate]
    by_cases h2 : p < l1.length + k
    · rw [if_pos (show p - l1.length < k by omega), if_pos h2]
    · rw [if_neg (show ¬ p - l1.length < k by omega), if_neg h2]

theorem getElem?_insert_shape (ols : List (Option α)) (i p : Nat) (x : Option α)
    (hi : i ≤ ols.length) :
    (ols.take i ++ x :: ols.drop i)[p]? =
      if p < i then ols[p]? else if p = i then some x
      else if p < ols.length + 1 then ols[p - 1]? else none := by
  rw [List.getElem?_append]
  have hlt : (ols.take i).length = i := by simp [List.length_take]; omega
  by_cases h1 : p < i
  · rw [if_pos (by omega), if_pos h1, List.getElem?_take, if_pos h1]
  · rw [if_neg (by omega), if_neg h1, List.getElem?_cons, hlt]
    by_cases h2 : p = i
    · rw [if_pos (by omega), if_pos h2]
    · rw [if_neg (by omega), if_neg h2, List.getElem?_drop]
      by_cases h3 : p < ols.length + 1
      · rw [if_pos h3]
        congr 1
        omega
      · rw [if_neg h3, List.getElem?_eq_none]
        omega

theorem getElem?_delete_shape (ols : List (Option α)) (i p : Nat) (hi : i < ols.length) :
    (ols.take i ++ ols.drop (i + 1))[p]? =
      if p < i then ols[p]? else if p < ols.length - 1 then ols[p + 1]? else none := by
  rw [List.getElem?_append]
  have hlt : (ols.take i).length = i := by simp [List.length_take]; omega
  by_cases h1 : p < i
  · rw [if_pos (by omega), if_pos h1, List.getElem?_take, if_pos h1]
  · rw [if_neg (by omega), if_neg h1, List.getElem?_drop, hlt]
    by_cases h2 : p < ols.length - 1
    · rw [if_pos h2]
      congr 1
      omega
    · rw [if_neg h2, List.getElem?_eq_none]
      omega

theorem insert_at_rep {s : DynamicArraySequence α} {ols : List (Option α)} (h : Rep s ols)
    (hr : 1 ≤ s.r) {i : Nat} (hi : i ≤ ols.length) (x : α) :
    ∃ s', insert_at s (i : Nat) x = .ok s' ∧
      Rep s' (ols.take i ++ some x :: ols.drop i) ∧ s'.r = s.r ∧ s'.size = s.size + 1 ∧
      s'.A.length = if (s.lower : Int) < s.size + 1 ∧ s.size + 1 < (s.upper : Int)
                    then s.A.length else (ols.length + 1) * s.r := by
  have hsz0 := h.1
  obtain ⟨s1, hins, hrep1, hr1, hlen1⟩ := insert_last_rep h hr none
  obtain ⟨hsz1, hA1, hle1, hup1, hlo1⟩ := hrep1
  simp only [List.length_append, List.length_singleton] at hsz1 hle1 hA1
  obtain ⟨c, hc⟩ : ∃ c, s1.A.length = c := ⟨_, rfl⟩
  rw [hc] at hA1 hle1 hup1 hlo1 hlen1
  have hget1 : ∀ p : Nat, s1.A[p]? =
      if p < ols.length then ols[p]? else if p < c then some (none : Option α) else none := by
    intro p
    conv_lhs => rw [hA1]
    rw [show ols ++ [(none : Option α)] ++
        List.replicate (c - (ols.length + 1)) (none : Option α) =
        ols ++ List.replicate ((c - (ols.length + 1)) + 1) (none : Option α) by
      rw [List.replicate_succ, List.append_assoc, List.singleton_append]]
    rw [getElem?_pad]
    by_cases h1 : p < ols.length
    · rw [if_pos h1, if_pos h1]
    · rw [if_neg h1, if_neg h1]
      by_cases h2 : p < c
      · rw [if_pos (show p < ols.length + (c - (ols.length + 1) + 1) by omega), if_pos h2]
      · rw [if_neg (show ¬ p < ols.length + (c - (ols.length + 1) + 1) by omega), if_neg h2]
  have hcnt : (s1.size - ((i : Nat) + 1)).toNat = ols.length - i := by omega
  obtain ⟨out, hout, hlenout, hpt⟩ :=
    copyBackwardSelf_spec (ols.length - i) i (i + 1) s1.A (by omega) (by omega)
  rw [hc] at hlenout
  have hout' : copyBackwardSelf s1.A ((i : Nat) : Int) (((i : Nat) : Int) + 1) (ols.length - i)
      = .ok out := by
    rw [show (((i : Nat) : Int) + 1) = (((i + 1 : Nat)) : Int) by push_cast; ring]
    exact hout
  have hilt : i < out.length := by omega
  have hset : pyset out ((i : Nat) : Int) (some x) = some (out.set i (some x)) := pyset_nat hilt _
  have hfinal : out.set i (some x) =
      (ols.take i ++ some x :: ols.drop i) ++
        List.replicate (c - (ols.length + 1)) (none : Option α) := by
    apply List.ext_getElem?
    intro p
    have hp := hpt p
    rw [List.getElem?_set]
    rw [getElem?_pad]
    have hlive : (ols.take i ++ some x :: ols.drop i).length = ols.length + 1 := by
      simp [List.length_take]
      omega
    rw [hlive, getElem?_insert_shape ols i p (some x) hi]
    by_cases hp0 : i = p
    · subst hp0
      rw [if_pos rfl, if_pos hilt, if_pos (show i < ols.length + 1 by omega),
        if_neg (show ¬ i < i by omega), if_pos rfl]
    · rw [if_neg hp0, hp]
      by_cases h1 : p < i
      · rw [if_neg (show ¬ (i + 1 ≤ p ∧ p < i + 1 + (ols.length - i)) by omega), hget1 p,
          if_pos (show p < ols.length by omega), if_pos (show p < ols.length + 1 by omega),
          if_pos h1]
      · by_cases h2 : p < ols.length + 1
        · rw [if_pos (show i + 1 ≤ p ∧ p < i + 1 + (ols.length - i) by omega), hget1,
            if_pos (show i + (p - (i + 1)) < ols.length by omega),
            if_pos h2, if_neg h1, if_neg (Ne.symm hp0), if_pos h2]
          congr 1
          omega
        · rw [if_neg (show ¬ (i + 1 ≤ p ∧ p < i + 1 + (ols.length - i)) by omega), hget1,
            if_neg (show ¬ p < ols.length by omega), if_neg h2]
          by_cases h3 : p < c
          · rw [if_pos h3, if_pos (show p < ols.length + 1 + (c - (ols.length + 1)) by omega)]
          · rw [if_neg h3, if_neg (show ¬ p < ols.length + 1 + (c - (ols.length + 1)) by omega)]
  refine ⟨{ s1 with A := out.set i (some x) }, ?_, ?_, hr1, ?_, ?_⟩
  · unfold insert_at
    rw [hins]
    show (match copyBackwardSelf s1.A ((i : Nat) : Int) (((i : Nat) : Int) + 1)
        (s1.size - (((i : Nat) : Int) + 1)).toNat with
      | .error A2 => Except.error { s1 with A := A2 }
      | .ok A2 =>
        match pyset A2 ((i : Nat) : Int) x with
        | none => Except.error { s1 with A := A2 }
        | some A3 => Except.ok { s1 with A := A3 }) = _
    rw [show (s1.size - (((i : Nat) : Int) + 1)).toNat = ols.length - i by omega, hout']
    show (match pyset out ((i : Nat) : Int) (some x) with
      | none => Except.error { s1 with A := out }
      | some A3 => Except.ok { s1 with A := A3 }) = _
    rw [hset]
  · refine rep_of_shape (c := c) ?_ ?_ ?_ hup1 hlo1
    · simp only [List.length_append, List.length_cons, List.length_take, List.length_drop]
      omega
    · show s1.size = _
      simp only [List.length_append, List.length_cons, List.length_take, List.length_drop]
      omega
    · rw [hfinal]
      congr 2
      simp only [List.length_append, List.length_cons, List.length_take, List.length_drop]
      omega
  · show s1.size = s.size + 1
    omega
  · show (out.set i (some x)).length = _
    rw [List.length_set, hlenout]
    exact hlen1

theorem delete_at_rep {s : DynamicArraySequence α} {ols : List (Option α)} (h : Rep s ols)
    (hr : 1 ≤ s.r) {i : Nat} (hi : i < ols.length) :
    ∃ s', delete_at s (i : Nat) = .ok (ols[i], s') ∧
      Rep s' (ols.take i ++ ols.drop (i + 1)) ∧ s'.r = s.r ∧ s'.size = s.size - 1 ∧
      s'.A.length = if (s.lower : Int) < s.size - 1 ∧ s.size - 1 < (s.upper : Int)
                    then s.A.length else (max (ols.length - 1) 1) * s.r := by
  obtain ⟨hsz, hA, hle, hup, hlo⟩ := h
  obtain ⟨c, hc⟩ : ∃ c, s.A.length = c := ⟨_, rfl⟩
  rw [hc] at hA hle hup hlo
  have hgetA : ∀ p : Nat, s.A[p]? =
      if p < ols.length then ols[p]? else if p < c then some (none : Option α) else none := by
    intro p
    conv_lhs => rw [hA]
    rw [getElem?_pad]
    by_cases h1 : p < ols.length
    · rw [if_pos h1, if_pos h1]
    · rw [if_neg h1, if_neg h1]
      by_cases h2 : p < c
      · rw [if_pos (show p < ols.length + (c - ols.length) by omega), if_pos h2]
      · rw [if_neg (show ¬ p < ols.length + (c - ols.length) by omega), if_neg h2]
  have hilt : i < s.A.length := by omega
  have hvali : s.A[i] = ols[i] := by
    have h2 := List.getElem?_eq_getElem hilt
    rw [hgetA i, if_pos hi, List.getElem?_eq_getElem hi] at h2
    exact (Option.some.injEq _ _).mp h2.symm
  have hread : pyget s.A ((i : Nat) : Int) = some ols[i] := by
    rw [pyget_nat hilt, hvali]
  obtain ⟨out, hout, hlenout, hpt⟩ :=
    copyForwardSelf_spec (ols.length - (i + 1)) (i + 1) i s.A (by omega) (by omega)
  rw [hc] at hlenout
  have hout' : copyForwardSelf s.A (((i : Nat) : Int) + 1) ((i : Nat) : Int)
      (ols.length - (i + 1)) = .ok out := by
    rw [show (((i : Nat) : Int) + 1) = (((i + 1 : Nat)) : Int) by push_cast; ring]
    exact hout
  obtain ⟨aL, haL⟩ : ∃ aL, ols[ols.length - 1]? = some aL :=
    ⟨_, List.getElem?_eq_getElem (by omega)⟩
  have hmid : out = ((ols.take i ++ ols.drop (i + 1)) ++ [aL]) ++
      List.replicate (c - ols.length) (none : Option α) := by
    apply List.ext_getElem?
    intro p
    have hp := hpt p
    rw [getElem?_pad]
    have hlive : ((ols.take i ++ ols.drop (i + 1)) ++ [aL]).length = ols.length := by
      simp only [List.length_append, List.length_take, List.length_drop, List.length_singleton]
      omega
    rw [hlive, List.getElem?_append]
    have hlive2 : (ols.take i ++ ols.drop (i + 1)).length = ols.length - 1 := by
      simp only [List.length_append, List.length_take, List.length_drop]
      omega
    rw [hlive2, hp]
    by_cases h1 : p < i
    · rw [if_neg (show ¬ (i ≤ p ∧ p < i + (ols.length - (i + 1))) by omega), hgetA,
        if_pos (show p < ols.length by omega), if_pos (show p < ols.length by omega),
        if_pos (show p < ols.length - 1 by omega),
        getElem?_delete_shape ols i p hi, if_pos h1]
    · by_cases h2 : p < ols.length - 1
      · rw [if_pos (show i ≤ p ∧ p < i + (ols.length - (i + 1)) by omega), hgetA,
          if_pos (show i + 1 + (p - i) < ols.length by omega),
          if_pos (show p < ols.length by omega), if_pos h2,
          getElem?_delete_shape ols i p hi, if_neg h1, if_pos h2]
        congr 1
        omega
      · by_cases h3 : p = ols.length - 1
        · rw [if_neg (show ¬ (i ≤ p ∧ p < i + (ols.length - (i + 1))) by omega), hgetA,
            if_pos (show p < ols.length by omega), if_pos (show p < ols.length by omega),
            if_neg (show ¬ p < ols.length - 1 by omega)]
          rw [show p - (ols.length - 1) = 0 by omega]
          rw [show (ols[p]? = ([aL] : List (Option α))[0]?) = (ols[p]? = some aL) by simp]
          rw [h3]
          exact haL
        · rw [if_neg (show ¬ (i ≤ p ∧ p < i + (ols.length - (i + 1))) by omega), hgetA,
            if_neg (show ¬ p < ols.length by omega), if_neg (show ¬ p < ols.length by omega)]
          by_cases h4 : p < c
          · rw [if_pos h4, if_pos (show p < ols.length + (c - ols.length) by omega)]
          · rw [if_neg h4, if_neg (show ¬ p < ols.length + (c - ols.length) by omega)]
  have hrepmid : Rep { s with A := out } ((ols.take i ++ ols.drop (i + 1)) ++ [aL]) := by
    refine rep_of_shape (c := c) ?_ ?_ ?_ hup hlo
    · simp only [List.length_append, List.length_take, List.length_drop, List.length_singleton]
      omega
    · show s.size = _
      simp only [List.length_append, List.length_take, List.length_drop, List.length_singleton]
      omega
    · rw [hmid]
      congr 2
      simp only [List.length_append, List.length_take, List.length_drop, List.length_singleton]
      omega
  obtain ⟨s3, hdel, hrep3, hr3, hlen3⟩ := delete_last_rep hrepmid (by simpa using hr)
  refine ⟨s3, ?_, hrep3, by simpa using hr3, ?_, ?_⟩
  · unfold delete_at
    rw [hread]
    show (match copyForwardSelf s.A (((i : Nat) : Int) + 1) ((i : Nat) : Int)
        (s.size - (((i : Nat) : Int) + 1)).toNat with
      | .error A2 => Except.error { s with A := A2 }
      | .ok A2 =>
        match delete_last { s with A := A2 } with
        | .error e => Except.error e
        | .ok (_, s2) => Except.ok (ols[i], s2)) = _
    rw [show (s.size - (((i : Nat) : Int) + 1)).toNat = ols.length - (i + 1) by omega, hout']
    show (match delete_last { s with A := out } with
      | .error e => Except.error e
      | .ok (_, s2) => Except.ok (ols[i], s2)) = _
    rw [hdel]
  · have h1 := hrep3.1
    simp only [List.length_append, List.length_take, List.length_drop] at h1
    omega
  · rw [hlen3]
    show (if ((({ s with A := out } : DynamicArraySequence α).lower : Int) <
        ({ s with A := out } : DynamicArraySequence α).size - 1 ∧
        ({ s with A := out } : DynamicArraySequence α).size - 1 <
        (({ s with A := out } : DynamicArraySequence α).upper : Int))
      then ({ s with A := out } : DynamicArraySequence α).A.length
      else max (ols.take i ++ ols.drop (i + 1)).length 1 *
        ({ s with A := out } : DynamicArraySequence α).r) = _
    dsimp only
    rw [hlenout, hc]
    have hlive2 : (ols.take i ++ ols.drop (i + 1)).length = ols.length - 1 := by
      simp only [List.length_append, List.length_take, List.length_drop]
      omega
    rw [hlive2]

theorem resize_ok_weak {s : DynamicArraySequence α} (n : Int) (hsz : s.size.toNat ≤ s.A.length)
    (hm : s.size.toNat ≤ (max n 1).toNat * s.r) :
    ∃ s', resize s n = .ok s' ∧ s'.size = s.size ∧ s'.r = s.r ∧
      (((((s.lower : Int) < n ∧ n < (s.upper : Int))) ∧ s' = s) ∨
       (¬((s.lower : Int) < n ∧ n < (s.upper : Int)) ∧
        s'.A.length = (max n 1).toNat * s.r ∧ s'.upper = s'.A.length ∧
        s'.lower = s'.A.length / (s.r * s.r) ∧
        ∀ p : Nat, p < s.size.toNat → s'.A[p]? = s.A[p]?)) := by
  by_cases hc : (s.lower : Int) < n ∧ n < (s.upper : Int)
  · refine ⟨s, ?_, rfl, rfl, Or.inl ⟨hc, rfl⟩⟩
    unfold resize
    rw [if_pos hc]
  · obtain ⟨out, hout, hlen, hpt⟩ := copyForwardSep_spec s.A s.size.toNat 0 0
      (List.replicate ((max n 1).toNat * s.r) (none : Option α)) (by omega) (by simpa using hm)
    simp only [Nat.cast_zero] at hout
    have hlenout : out.length = (max n 1).toNat * s.r := by simpa using hlen
    refine ⟨computeBounds { s with A := out }, ?_, rfl, rfl, Or.inr ⟨hc, ?_, ?_, ?_, ?_⟩⟩
    · unfold resize
      rw [if_neg hc]
      show (match copyForwardSep s.A 0
          (List.replicate ((max n 1).toNat * s.r) (none : Option α)) 0 s.size.toNat with
        | .error _ => Except.error s
        | .ok Anew => Except.ok (computeBounds { s with A := Anew })) = _
      rw [hout]
    · show out.length = _
      exact hlenout
    · rfl
    · rfl
    · intro p hp
      have h2 := hpt p
      simp only [Nat.zero_add, Nat.sub_zero, Nat.zero_le, true_and] at h2
      show out[p]? = s.A[p]?
      rw [h2, if_pos hp]

theorem rep_mkDyn (r : Nat) : Rep (mkDyn r : DynamicArraySequence α) [] :=
  ⟨rfl, rfl, Nat.le_refl 0, rfl, rfl⟩

theorem build_rep : ∀ (X : List α) (s : DynamicArraySequence α) (ols : List (Option α)),
    1 ≤ s.r → Rep s ols →
    ∃ s', DynamicArraySequence.build s X = .ok s' ∧ Rep s' (ols ++ X.map some) ∧
      s'.r = s.r := by
  intro X
  induction X with
  | nil =>
    intro s ols _ h
    exact ⟨s, rfl, by simpa using h, rfl⟩
  | cons a rest ih =>
    intro s ols hr h
    obtain ⟨s1, hins, hrep1, hr1, _⟩ := insert_last_rep h hr (some a)
    obtain ⟨s', hbuild, hrep', hr'⟩ := ih s1 (ols ++ [some a]) (by omega) hrep1
    refine ⟨s', ?_, ?_, by omega⟩
    · show DynamicArraySequence.build s (a :: rest) = _
      simp only [DynamicArraySequence.build]
      rw [hins]
      exact hbuild
    · rw [List.map_cons, show ols ++ (some a :: rest.map some) =
        (ols ++ [some a]) ++ rest.map some by simp]
      exact hrep'

theorem grow_lower_le (L r : Nat) (hr : 1 ≤ r) : ((L + 1) * r) / (r * r) ≤ L + 1 := by
  calc ((L + 1) * r) / (r * r) ≤ ((L + 1) * r) / r :=
        Nat.div_le_div_left (Nat.le_mul_of_pos_left r hr) hr
    _ = L + 1 := Nat.mul_div_cancel _ hr

theorem shrink_lower_le (L r : Nat) (hr : 2 ≤ r) : (max L 1 * r) / (r * r) ≤ L := by
  rcases Nat.eq_zero_or_pos L with h0 | h0
  · subst h0
    rw [max_eq_right (by omega), one_mul]
    rw [Nat.div_eq_of_lt (by nlinarith)]
  · rw [max_eq_left h0]
    calc (L * r) / (r * r) ≤ (L * r) / r :=
          Nat.div_le_div_left (Nat.le_mul_of_pos_left r (by omega)) (by omega)
      _ = L := Nat.mul_div_cancel _ (by omega)

theorem lower_le_grow {s s' : DynamicArraySequence α} {ols ols' : List (Option α)}
    (h : Rep s ols) (hr : 2 ≤ s.r) (hrep' : Rep s' ols') (hr' : s'.r = s.r)
    (hL : ols'.length = ols.length + 1)
    (hlen' : s'.A.length = if (s.lower : Int) < s.size + 1 ∧ s.size + 1 < (s.upper : Int)
             then s.A.length else (ols.length + 1) * s.r) :
    s'.lower ≤ ols'.length := by
  have hlow' := hrep'.2.2.2.2
  have hlo := h.2.2.2.2
  have hsz := h.1
  rw [hL, hlow', hlen', hr']
  split_ifs with hcc
  · omega
  · exact grow_lower_le ols.length s.r (by omega)

theorem lower_le_shrink {s s' : DynamicArraySequence α} {ols ols' : List (Option α)}
    (h : Rep s ols) (hr : 2 ≤ s.r) (hrep' : Rep s' ols') (hr' : s'.r = s.r)
    (hL : ols'.length = ols.length - 1) (hpos : 1 ≤ ols.length)
    (hlen' : s'.A.length = if (s.lower : Int) < s.size - 1 ∧ s.size - 1 < (s.upper : Int)
             then s.A.length else (max (ols.length - 1) 1) * s.r) :
    s'.lower ≤ ols'.length := by
  have hlow' := hrep'.2.2.2.2
  have hlo := h.2.2.2.2
  have hsz := h.1
  rw [hL, hlow', hlen', hr']
  split_ifs with hcc
  · omega
  · exact shrink_lower_le (ols.length - 1) s.r hr

theorem applyOp_rep {s : DynamicArraySequence α} {ols : List (Option α)} {op : DOp α}
    (h : Rep s ols) (hr : 2 ≤ s.r) (hv : DOp.validOp ols.length op = true) :
    ∃ s', DOp.applyOp s op = .ok s' ∧ Rep s' (DOp.absOp ols op) ∧ s'.r = s.r ∧
      s'.lower ≤ (DOp.absOp ols op).length := by
  cases op with
  | insLast x =>
    obtain ⟨s', hok, hrep', hr', hlen'⟩ := insert_last_rep h (by omega) (some x)
    exact ⟨s', hok, hrep', hr',
      lower_le_grow h hr hrep' hr' (by simp [DOp.absOp]) hlen'⟩
  | insAt i x =>
    have hv' : 0 ≤ i ∧ i ≤ (ols.length : Int) := of_decide_eq_true hv
    obtain ⟨s', hok, hrep', hr', hsz', hlen'⟩ :=
      insert_at_rep h (by omega) (i := i.toNat) (by omega) x
    have hi : ((i.toNat : Nat) : Int) = i := by omega
    refine ⟨s', ?_, hrep', hr', ?_⟩
    · show insert_at s i x = .ok s'
      rw [← hi]
      exact hok
    · refine lower_le_grow h hr hrep' hr' ?_ hlen'
      simp only [DOp.absOp, List.length_append, List.length_cons, List.length_take,
        List.length_drop]
      omega
  | delLast =>
    have hv' : 1 ≤ ols.length := of_decide_eq_true hv
    have hne : ols ≠ [] := by
      intro hnil
      rw [hnil] at hv'
      simp at hv'
    have hsplit : ols.dropLast ++ [ols.getLast hne] = ols := List.dropLast_append_getLast hne
    obtain ⟨s', hok, hrep', hr', hlen'⟩ := delete_last_rep (by rw [hsplit]; exact h) (by omega)
    have habs : DOp.absOp ols DOp.delLast = ols.dropLast := by
      show ols.take (ols.length - 1) = _
      rw [List.dropLast_eq_take]
    refine ⟨s', ?_, ?_, hr', ?_⟩
    · show DOp.applyOp s DOp.delLast = .ok s'
      simp only [DOp.applyOp]
      rw [hok]
    · rw [habs]
      exact hrep'
    · rw [habs]
      refine lower_le_shrink h hr hrep' hr' ?_ hv' ?_
      · rw [List.length_dropLast]
      · rw [hlen']
        have hld : ols.dropLast.length = ols.length - 1 := List.length_dropLast ols
        rw [hld]
  | delAt i =>
    have hv' : 0 ≤ i ∧ i < (ols.length : Int) := of_decide_eq_true hv
    obtain ⟨s', hok, hrep', hr', hsz', hlen'⟩ :=
      delete_at_rep h (by omega) (i := i.toNat) (by omega)
    have hi : ((i.toNat : Nat) : Int) = i := by omega
    refine ⟨s', ?_, hrep', hr', ?_⟩
    · show DOp.applyOp s (DOp.delAt i) = .ok s'
      simp only [DOp.applyOp]
      rw [← hi, hok]
    · refine lower_le_shrink h hr hrep' hr' ?_ (by omega) hlen'
      simp only [DOp.absOp, List.length_append, List.length_take, List.length_drop]
      omega

theorem applyOps_rep : ∀ (ops : List (DOp α)) (s : DynamicArraySequence α)
    (ols : List (Option α)), Rep s ols → 2 ≤ s.r → s.lower ≤ ols.length →
    DOp.validSeq ols ops = true →
    ∃ s', DOp.applyOps s ops = .ok s' ∧ Rep s' (DOp.absOps ols ops) ∧ s'.r = s.r ∧
      s'.lower ≤ (DOp.absOps ols ops).length := by
  intro ops
  induction ops with
  | nil =>
    intro s ols h hr hb _
    exact ⟨s, rfl, h, rfl, hb⟩
  | cons op rest ih =>
    intro s ols h hr hb hv
    rw [show DOp.validSeq ols (op :: rest) =
      (DOp.validOp ols.length op && DOp.validSeq (DOp.absOp ols op) rest) from rfl,
      Bool.and_eq_true] at hv
    obtain ⟨s1, hok1, hrep1, hr1, hb1⟩ := applyOp_rep h hr hv.1
    obtain ⟨s', hok', hrep', hr', hb'⟩ := ih s1 (DOp.absOp ols op) hrep1 (by omega) hb1 hv.2
    refine ⟨s', ?_, hrep', by omega, hb'⟩
    show DOp.applyOps s (op :: rest) = _
    simp only [DOp.applyOps]
    rw [hok1]
    exact hok'

theorem absOps_length : ∀ (ops : List (DOp α)) (l : List (Option α)),
    DOp.validSeq l ops = true →
    ((DOp.absOps l ops).length : Int) =
      (l.length : Int) + (DOp.insCount ops : Int) - (DOp.delCount ops : Int) := by
  intro ops
  induction ops with
  | nil =>
    intro l _
    show ((l.length : Nat) : Int) = _
    simp [DOp.insCount, DOp.delCount]
  | cons op rest ih =>
    intro l hv
    rw [show DOp.validSeq l (op :: rest) =
      (DOp.validOp l.length op && DOp.validSeq (DOp.absOp l op) rest) from rfl,
      Bool.and_eq_true] at hv
    have h1 := ih (DOp.absOp l op) hv.2
    show ((DOp.absOps (DOp.absOp l op) rest).length : Int) = _
    rw [h1]
    cases op with
    | insLast x =>
      simp only [DOp.absOp, DOp.insCount, DOp.delCount, List.length_append,
        List.length_singleton]
      push_cast
      ring
    | insAt i x =>
      have hv' : 0 ≤ i ∧ i ≤ (l.length : Int) := of_decide_eq_true hv.1
      simp only [DOp.absOp, DOp.insCount, DOp.delCount, List.length_append,
        List.length_cons, List.length_take, List.length_drop]
      push_cast
      omega
    | delLast =>
      have hv' : 1 ≤ l.length := of_decide_eq_true hv.1
      simp only [DOp.absOp, DOp.insCount, DOp.delCount, List.length_take]
      push_cast
      omega
    | delAt i =>
      have hv' : 0 ≤ i ∧ i < (l.length : Int) := of_decide_eq_true hv.1
      simp only [DOp.absOp, DOp.insCount, DOp.delCount, List.length_append,
        List.length_take, List.length_drop]
      push_cast
      omega

theorem pyget_some_inrange {A : List β} {i : Int} {v : β} (h : pyget A i = some v) :
    -(A.length : Int) ≤ i ∧ i < (A.length : Int) := by
  by_contra hcon
  rw [pyget_oob (by omega)] at h
  cases h

theorem insert_last_safe {s : DynamicArraySequence α} (h : SafeState s) (x : Option α) :
    ∃ s1 A2, resize s (s.size + 1) = .ok s1 ∧ s.size < (s1.A.length : Int) ∧
      pyset s1.A s1.size x = some A2 ∧
      insert_last s x = .ok { s1 with A := A2, size := s1.size + 1 } ∧
      SafeState { s1 with A := A2, size := s1.size + 1 } := by
  obtain ⟨hr, hup, hcase⟩ := h
  have hsz : s.size.toNat ≤ s.A.length := by
    rcases hcase with ⟨h0, h1⟩ | ⟨h0, h1, h2⟩
    · exact h1
    · omega
  have hm : s.size.toNat ≤ (max (s.size + 1) 1).toNat * s.r := by
    rcases le_or_lt 0 s.size with h0 | h0
    · rw [max_eq_left (by omega)]
      have h2 := Nat.mul_le_mul_left (s.size + 1).toNat hr
      omega
    · have h1 : s.size.toNat = 0 := by omega
      omega
  obtain ⟨s1, hres, hsz1, hr1, hcases⟩ := resize_ok_weak (s.size + 1) hsz hm
  have hmax_neg : s.size < 0 → (max (s.size + 1) 1).toNat = 1 := by
    intro h0
    rw [max_eq_right (by omega)]
    rfl
  have hcap : s.size < (s1.A.length : Int) ∧ -(s1.A.length : Int) ≤ s.size := by
    rcases hcases with ⟨⟨hc1, hc2⟩, heq⟩ | ⟨hc, hlen, _⟩
    · rw [heq]
      constructor
      · omega
      · have h0 : 0 ≤ s.size := by omega
        omega
    · rw [hlen]
      rcases le_or_lt 0 s.size with h0 | h0
      · rw [max_eq_left (by omega)]
        have h2 := Nat.mul_le_mul_left (s.size + 1).toNat hr
        constructor
        · omega
        · omega
      · rw [hmax_neg h0, one_mul]
        rcases hcase with ⟨h1, _⟩ | ⟨h1, h2, h3⟩
        · omega
        · omega
  have hcg : -(s1.A.length : Int) ≤ s1.size := by rw [hsz1]; exact hcap.2
  have hcl : s1.size < (s1.A.length : Int) := by rw [hsz1]; exact hcap.1
  obtain ⟨A2, hA2, hlen2⟩ := pyset_inrange hcg hcl x
  refine ⟨s1, A2, hres, hcap.1, hA2, ?_, ?_⟩
  · unfold insert_last
    rw [hres]
    show (match pyset s1.A s1.size x with
      | none => Except.error s1
      | some A2 => Except.ok { s1 with A := A2, size := s1.size + 1 }) = _
    rw [hA2]
  · refine ⟨by dsimp only; omega, ?_, ?_⟩
    · show s1.upper = A2.length
      rw [hlen2]
      rcases hcases with ⟨_, heq⟩ | ⟨_, hlen, hupper, _⟩
      · rw [heq]
        exact hup
      · rw [hupper]
    · show 0 ≤ s1.size + 1 ∧ (s1.size + 1).toNat ≤ A2.length ∨
        (s1.size + 1 < 0 ∧ -((s1.r : Nat) : Int) ≤ s1.size + 1 ∧ A2.length = s1.r)
      rw [hsz1, hlen2, hr1]
      rcases le_or_lt 0 (s.size + 1) with h0 | h0
      · left
        refine ⟨h0, ?_⟩
        have hc1 := hcap.1
        have hc2 := hcap.2
        omega
      · right
        refine ⟨h0, ?_, ?_⟩
        · rcases hcase with ⟨h1, _⟩ | ⟨h1, h2, h3⟩
          · omega
          · omega
        · rcases hcases with ⟨⟨hc1, _⟩, heq⟩ | ⟨_, hlen, _⟩
          · omega
          · rw [hlen, hmax_neg (by omega), one_mul]

theorem delete_last_of_read {s : DynamicArraySequence α} {v : Option α} (h : SafeState s)
    (hg : pyget s.A (s.size - 1) = some v) :
    ∃ s3, delete_last s = .ok (v, s3) ∧ SafeState s3 := by
  obtain ⟨hr, hup, hcase⟩ := h
  have hin := pyget_some_inrange hg
  obtain ⟨A2, hA2, hlen2⟩ := pyset_inrange hin.1 hin.2 (none : Option α)
  have hsz2 : (s.size - 1).toNat ≤ A2.length := by
    rw [hlen2]
    rcases hcase with ⟨h0, h1⟩ | ⟨h0, h1, h2⟩
    · omega
    · omega
  have hm2 : (s.size - 1).toNat ≤ (max (s.size - 1) 1).toNat * s.r := by
    rcases le_or_lt (s.size - 1) 0 with hc | hc
    · have h1 : (s.size - 1).toNat = 0 := by omega
      omega
    · rw [max_eq_left (by omega)]
      have h2 := Nat.mul_le_mul_left (s.size - 1).toNat hr
      omega
  obtain ⟨s3, hres, hsz3, hr3, hcases3⟩ :=
    resize_ok_weak (s := { s with A := A2, size := s.size - 1 }) (s.size - 1) hsz2 hm2
  refine ⟨s3, ?_, ?_⟩
  · unfold delete_last
    rw [hg]
    show (match pyset s.A (s.size - 1) (none : Option α) with
      | none => Except.error s
      | some A2 =>
        match resize { s with A := A2, size := s.size - 1 } (s.size - 1) with
        | .error e => Except.error e
        | .ok s3 => Except.ok (v, s3)) = _
    rw [hA2]
    show (match resize { s with A := A2, size := s.size - 1 } (s.size - 1) with
      | .error e => Except.error e
      | .ok s3 => Except.ok (v, s3)) = _
    rw [hres]
  · have hsz3' : s3.size = s.size - 1 := hsz3
    have hr3' : s3.r = s.r := hr3
    rcases hcases3 with ⟨⟨hc1, hc2⟩, heq⟩ | ⟨hc, hlen3, hupper3, _, _⟩
    · subst heq
      refine ⟨by omega, ?_, ?_⟩
      · show s.upper = A2.length
        rw [hlen2]
        exact hup
      · left
        refine ⟨by omega, ?_⟩
        show (s.size - 1).toNat ≤ A2.length
        have hc2' : s.size - 1 < ((s.upper : Nat) : Int) := hc2
        omega
    · refine ⟨by omega, hupper3, ?_⟩
      rcases le_or_lt 0 (s.size - 1) with h0 | h0
      · left
        rw [hsz3']
        exact ⟨h0, by rw [hlen3]; exact hm2⟩
      · right
        rw [hsz3', hr3', hlen3]
        refine ⟨h0, ?_, ?_⟩
        · rcases hcase with ⟨h1, h2⟩ | ⟨h1, h2, h3⟩
          · omega
          · rw [h3] at hin
            omega
        · rw [max_eq_right (by omega : s.size - 1 ≤ (1 : Int))]
          simp

theorem reach_safe {s : DynamicArraySequence α} (h : Reach s) : SafeState s := by
  induction h with
  | init r hr =>
    exact ⟨hr, rfl, Or.inl ⟨le_refl 0, Nat.le_refl 0⟩⟩
  | insStep s s' x hs hok ih =>
    obtain ⟨s1, A2, _, _, _, hins, hsafe⟩ := insert_last_safe ih x
    rw [hok] at hins
    cases hins
    exact hsafe
  | delStep s s' x hs hok ih =>
    cases hg : pyget s.A (s.size - 1) with
    | none =>
      have herr : delete_last s = .error s := by
        unfold delete_last
        rw [hg]
      rw [herr] at hok
      cases hok
    | some v =>
      obtain ⟨s3, hdel, hsafe⟩ := delete_last_of_read ih hg
      rw [hok] at hdel
      cases hdel
      exact hsafe

theorem get_at_error_iff (s : DynamicArraySequence α) (i : Int) :
    (∃ e, get_at s i = .error e) ↔ (i < -(s.A.length : Int) ∨ (s.A.length : Int) ≤ i) := by
  constructor
  · rintro ⟨e, he⟩
    by_contra hcon
    obtain ⟨v, hv⟩ := pyget_inrange (A := s.A) (i := i) (by omega) (by omega)
    unfold get_at at he
    rw [hv] at he
    cases he
  · intro h
    refine ⟨s, ?_⟩
    unfold get_at
    rw [pyget_oob h]

theorem get_at_error_state {s e : DynamicArraySequence α} {i : Int}
    (he : get_at s i = .error e) : e = s := by
  unfold get_at at he
  cases hg : pyget s.A i with
  | none =>
    rw [hg] at he
    have he' : (Except.error s : Except (DynamicArraySequence α) (Option α)) = .error e := he
    injection he' with h
    exact h.symm
  | some v =>
    rw [hg] at he
    cases he

theorem set_at_error_iff (s : DynamicArraySequence α) (i : Int) (x : Option α) :
    (∃ e, set_at s i x = .error e) ↔ (i < -(s.A.length : Int) ∨ (s.A.length : Int) ≤ i) := by
  constructor
  · rintro ⟨e, he⟩
    by_contra hcon
    obtain ⟨A2, hA2, _⟩ := pyset_inrange (A := s.A) (i := i) (by omega) (by omega) x
    unfold set_at at he
    rw [hA2] at he
    cases he
  · intro h
    refine ⟨s, ?_⟩
    unfold set_at
    rw [pyset_oob h]

theorem set_at_error_state {s e : DynamicArraySequence α} {i : Int} {x : Option α}
    (he : set_at s i x = .error e) : e = s := by
  unfold set_at at he
  cases hg : pyset s.A i x with
  | none =>
    rw [hg] at he
    have he' : (Except.error s : Except (DynamicArraySequence α) (DynamicArraySequence α)) =
      .error e := he
    injection he' with h
    exact h.symm
  | some A2 =>
    rw [hg] at he
    cases he

theorem delete_at_ok_of_inrange {s : DynamicArraySequence α} {ols : List (Option α)}
    (h : Rep s ols) (hr : 1 ≤ s.r) {i : Int}
    (h0 : -(s.A.length : Int) ≤ i) (h1 : i < (s.A.length : Int)) :
    ∃ v s', delete_at s i = .ok (v, s') := by
  obtain ⟨hsz, hA, hle, hup, hlo⟩ := h
  obtain ⟨v, hv⟩ := pyget_inrange h0 h1
  have hcap1 : 1 ≤ s.A.length := by omega
  obtain ⟨out, hout, hlenout⟩ := copyForwardSelf_ok (s.size - (i + 1)).toNat (i + 1) i s.A (by
    intro k hk
    have hk' : (k : Int) < s.size - (i + 1) := by omega
    refine ⟨by omega, by omega, by omega, by omega⟩)
  obtain ⟨w, hw⟩ := pyget_inrange (A := out) (i := s.size - 1)
    (by rw [hlenout]; omega) (by rw [hlenout]; omega)
  obtain ⟨A3, hA3, hlen3⟩ := pyset_inrange (A := out) (i := s.size - 1)
    (by rw [hlenout]; omega) (by rw [hlenout]; omega) (none : Option α)
  have hszw : (s.size - 1).toNat ≤ A3.length := by
    rw [hlen3, hlenout]
    omega
  have hmw : (s.size - 1).toNat ≤ (max (s.size - 1) 1).toNat * s.r := by
    rcases le_or_lt (s.size - 1) 0 with hc | hc
    · have h2 : (s.size - 1).toNat = 0 := by omega
      omega
    · rw [max_eq_left (by omega)]
      have h2 := Nat.mul_le_mul_left (s.size - 1).toNat hr
      omega
  obtain ⟨s3, hres, _⟩ :=
    resize_ok_weak (s := { s with A := A3, size := s.size - 1 }) (s.size - 1) hszw hmw
  have hdel : delete_last { s with A := out } = .ok (w, s3) := by
    unfold delete_last
    dsimp only
    rw [hw, hA3]
    show (match resize { s with A := A3, size := s.size - 1 } (s.size - 1) with
      | .error e => Except.error e
      | .ok s3 => Except.ok (w, s3)) = _
    rw [hres]
  refine ⟨v, s3, ?_⟩
  unfold delete_at
  rw [hv]
  show (match copyForwardSelf s.A (i + 1) i (s.size - (i + 1)).toNat with
    | .error A2 => Except.error { s with A := A2 }
    | .ok A2 =>
      match delete_last { s with A := A2 } with
      | .error e => Except.error e
      | .ok (_, s2) => Except.ok (v, s2)) = _
  rw [hout]
  show (match delete_last { s with A := out } with
    | .error e => Except.error e
    | .ok (_, s2) => Except.ok (v, s2)) = _
  rw [hdel]

theorem delete_at_error_char {s : DynamicArraySequence α} {ols : List (Option α)}
    (h : Rep s ols) (hr : 1 ≤ s.r) {i : Int} {e : DynamicArraySequence α}
    (he : delete_at s i = .error e) :
    e = s ∧ (i < -(s.A.length : Int) ∨ (s.A.length : Int) ≤ i) := by
  by_cases hin : -(s.A.length : Int) ≤ i ∧ i < (s.A.length : Int)
  · obtain ⟨v, s', hok⟩ := delete_at_ok_of_inrange h hr hin.1 hin.2
    rw [hok] at he
    cases he
  · have hg : pyget s.A i = none := pyget_oob (by omega)
    unfold delete_at at he
    rw [hg] at he
    have he' : (Except.error s :
      Except (DynamicArraySequence α) (Option α × DynamicArraySequence α)) = .error e := he
    injection he' with h2
    exact ⟨h2.symm, by omega⟩

theorem insert_at_char {s : DynamicArraySequence α} {ols : List (Option α)}
    (h : Rep s ols) (hr : 1 ≤ s.r) (i : Int) (x : α) :
    ∃ s1, insert_last s none = .ok s1 ∧
      ((-(s1.A.length : Int) ≤ i ∧ i < (s1.A.length : Int)) →
        ∃ s', insert_at s i x = .ok s') ∧
      ((i < -(s1.A.length : Int) ∨ (s1.A.length : Int) ≤ i) →
        ∃ e, insert_at s i x = .error e) := by
  obtain ⟨s1, hins, hrep1, hr1, hlen1⟩ := insert_last_rep h hr none
  obtain ⟨hsz1, hA1, hle1, hup1, hlo1⟩ := hrep1
  simp only [List.length_append, List.length_singleton] at hsz1 hle1
  have hcap1 : 1 ≤ s1.A.length := by omega
  refine ⟨s1, hins, ?_, ?_⟩
  · intro ⟨h0, h1⟩
    obtain ⟨out, hout, hlenout⟩ :=
      copyBackwardSelf_ok (s1.size - (i + 1)).toNat i (i + 1) s1.A (by
        intro k hk
        have hk' : (k : Int) < s1.size - (i + 1) := by omega
        refine ⟨by omega, by omega, by omega, by omega⟩)
    obtain ⟨A3, hA3, _⟩ := pyset_inrange (A := out) (i := i)
      (by rw [hlenout]; exact h0) (by rw [hlenout]; exact h1) (some x)
    refine ⟨{ s1 with A := A3 }, ?_⟩
    unfold insert_at
    rw [hins]
    show (match copyBackwardSelf s1.A i (i + 1) (s1.size - (i + 1)).toNat with
      | .error A2 => Except.error { s1 with A := A2 }
      | .ok A2 =>
        match pyset A2 i x with
        | none => Except.error { s1 with A := A2 }
        | some A3 => Except.ok { s1 with A := A3 }) = _
    rw [hout]
    show (match pyset out i (some x) with
      | none => Except.error { s1 with A := out }
      | some A3 => Except.ok { s1 with A := A3 }) = _
    rw [hA3]
  · intro hoob
    rcases hoob with hlow | hhigh
    · have hn : 1 ≤ (s1.size - (i + 1)).toNat := by omega
      obtain ⟨e, he⟩ := copyBackwardSelf_err (s1.size - (i + 1)).toNat i (i + 1) s1.A
        (by omega) hlow
      refine ⟨{ s1 with A := e }, ?_⟩
      unfold insert_at
      rw [hins]
      show (match copyBackwardSelf s1.A i (i + 1) (s1.size - (i + 1)).toNat with
        | .error A2 => Except.error { s1 with A := A2 }
        | .ok A2 =>
          match pyset A2 i x with
          | none => Except.error { s1 with A := A2 }
          | some A3 => Except.ok { s1 with A := A3 }) = _
      rw [he]
    · have hn : (s1.size - (i + 1)).toNat = 0 := by omega
      refine ⟨{ s1 with A := s1.A }, ?_⟩
      unfold insert_at
      rw [hins]
      show (match copyBackwardSelf s1.A i (i + 1) (s1.size - (i + 1)).toNat with
        | .error A2 => Except.error { s1 with A := A2 }
        | .ok A2 =>
          match pyset A2 i x with
          | none => Except.error { s1 with A := A2 }
          | some A3 => Except.ok { s1 with A := A3 }) = _
      rw [hn]
      show (match pyset s1.A i x with
        | none => Except.error { s1 with A := s1.A }
        | some A3 => Except.ok { s1 with A := A3 }) = _
      rw [pyset_oob (Or.inr hhigh)]

theorem upsert_of_not_mem [DecidableEq K] (p : SetPair K V) :
    ∀ ps : List (SetPair K V), p.key ∉ ps.map SetPair.key → upsert p ps = ps ++ [p] := by
  intro ps
  induction ps with
  | nil => intro _; rfl
  | cons q qs ih =>
    intro hmem
    show (if q.key = p.key then p :: qs else q :: upsert p qs) = _
    rw [if_neg (by simp at hmem; exact fun hq => hmem.1 hq.symm), ih (by simp at hmem ⊢; exact hmem.2)]
    rfl

theorem upsert_of_mem [DecidableEq K] (p : SetPair K V) :
    ∀ ps : List (SetPair K V), p.key ∈ ps.map SetPair.key →
      ∃ j, ∃ hj : j < ps.length, (ps.get ⟨j, hj⟩).key = p.key ∧ upsert p ps = ps.set j p := by
  intro ps
  induction ps with
  | nil => intro hmem; simp at hmem
  | cons q qs ih =>
    intro hmem
    by_cases hq : q.key = p.key
    · refine ⟨0, by simp, hq, ?_⟩
      show (if q.key = p.key then p :: qs else q :: upsert p qs) = _
      rw [if_pos hq]
      rfl
    · have hmem' : p.key ∈ qs.map SetPair.key := by
        simp at hmem
        rcases hmem with h1 | h1
        · exact absurd h1.symm hq
        · simpa using h1
      obtain ⟨j, hj, hkey, heq⟩ := ih hmem'
      refine ⟨j + 1, by simpa using hj, hkey, ?_⟩
      show (if q.key = p.key then p :: qs else q :: upsert p qs) = _
      rw [if_neg hq, heq]
      rfl

theorem upsert_keys_sub [DecidableEq K] (p : SetPair K V) :
    ∀ (ps : List (SetPair K V)) (k : K), k ∈ (upsert p ps).map SetPair.key →
      k = p.key ∨ k ∈ ps.map SetPair.key := by
  intro ps
  induction ps with
  | nil =>
    intro k hk
    simp [upsert] at hk
    exact Or.inl hk
  | cons q qs ih =>
    intro k hk
    by_cases hq : q.key = p.key
    · rw [show upsert p (q :: qs) = p :: qs from by
        show (if q.key = p.key then p :: qs else q :: upsert p qs) = _
        rw [if_pos hq], List.map_cons, List.mem_cons] at hk
      rcases hk with h1 | h1
      · exact Or.inl h1
      · exact Or.inr (by rw [List.map_cons, List.mem_cons]; exact Or.inr h1)
    · rw [show upsert p (q :: qs) = q :: upsert p qs from by
        show (if q.key = p.key then p :: qs else q :: upsert p qs) = _
        rw [if_neg hq], List.map_cons, List.mem_cons] at hk
      rcases hk with h1 | h1
      · exact Or.inr (by rw [List.map_cons, List.mem_cons]; exact Or.inl h1)
      · rcases ih k h1 with h2 | h2
        · exact Or.inl h2
        · exact Or.inr (by rw [List.map_cons, List.mem_cons]; exact Or.inr h2)

theorem upsert_nodup [DecidableEq K] (p : SetPair K V) :
    ∀ ps : List (SetPair K V), (ps.map SetPair.key).Nodup →
      ((upsert p ps).map SetPair.key).Nodup := by
  intro ps
  induction ps with
  | nil => intro _; simp [upsert]
  | cons q qs ih =>
    intro hnd
    rw [List.map_cons, List.nodup_cons] at hnd
    by_cases hq : q.key = p.key
    · rw [show upsert p (q :: qs) = p :: qs from by
        show (if q.key = p.key then p :: qs else q :: upsert p qs) = _
        rw [if_pos hq]]
      rw [List.map_cons, List.nodup_cons]
      exact ⟨by rw [← hq]; exact hnd.1, hnd.2⟩
    · rw [show upsert p (q :: qs) = q :: upsert p qs from by
        show (if q.key = p.key then p :: qs else q :: upsert p qs) = _
        rw [if_neg hq]]
      rw [List.map_cons, List.nodup_cons]
      refine ⟨?_, ih hnd.2⟩
      intro hmem
      rcases upsert_keys_sub p qs q.key hmem with h1 | h1
      · exact hq h1
      · exact hnd.1 h1

theorem removeFirstKey_sublist [DecidableEq K] (k : K) :
    ∀ ps : List (SetPair K V), (removeFirstKey k ps).Sublist ps := by
  intro ps
  induction ps with
  | nil => exact List.Sublist.refl []
  | cons q qs ih =>
    show (if q.key = k then qs else q :: removeFirstKey k qs).Sublist (q :: qs)
    by_cases hq : q.key = k
    · rw [if_pos hq]
      exact List.sublist_cons_self q qs
    · rw [if_neg hq]
      exact List.Sublist.cons₂ q ih

theorem removeFirstKey_nodup [DecidableEq K] (k : K) (ps : List (SetPair K V))
    (hnd : (ps.map SetPair.key).Nodup) : ((removeFirstKey k ps).map SetPair.key).Nodup :=
  List.Nodup.sublist (List.Sublist.map SetPair.key (removeFirstKey_sublist k ps)) hnd

theorem map_some_get {ps : List (SetPair K V)} {i : Nat} (hi : i < ps.length) :
    (ps.map some).get ⟨i, by simpa using hi⟩ = some (ps.get ⟨i, hi⟩) := by
  simp

theorem insertLoop_spec [DecidableEq K] (pair : SetPair K V) :
    ∀ (fuel i : Nat) (d : DynamicArraySequence (SetPair K V)) (ps : List (SetPair K V)),
      Rep d (ps.map some) → 1 ≤ d.r → i + fuel = ps.length →
      ∃ d', KVSet.insertLoop d pair ((i : Nat) : Int) fuel = .ok d' ∧
        Rep d' ((ps.take i ++ upsert pair (ps.drop i)).map some) ∧ d'.r = d.r := by
  intro fuel
  induction fuel with
  | zero =>
    intro i d ps h hrr hif
    obtain ⟨d', hok, hrep', hr', _⟩ := insert_last_rep h hrr (some pair)
    refine ⟨d', hok, ?_, hr'⟩
    have h1 : ps.take i = ps := by
      rw [show i = ps.length by omega]
      exact List.take_length ps
    have h2 : ps.drop i = [] := by
      rw [show i = ps.length by omega]
      exact List.drop_length ps
    rw [h1, h2]
    show Rep d' ((ps ++ [pair]).map some)
    rw [List.map_append]
    exact hrep'
  | succ m ih =>
    intro i d ps h hrr hif
    have hi : i < ps.length := by omega
    have hi' : i < (ps.map some).length := by simpa using hi
    have hga := get_at_rep h hi'
    have hgv : (ps.map some)[i] = some ps[i] := by simp
    show ∃ d', (match get_at d ((i : Nat) : Int) with
      | .error e => Except.error e
      | .ok none => Except.error d
      | .ok (some kv) =>
        if kv.key = pair.key then set_at d ((i : Nat) : Int) (some pair)
        else KVSet.insertLoop d pair (((i : Nat) : Int) + 1) m) = .ok d' ∧ _
    rw [hga, hgv]
    show ∃ d', (if ps[i].key = pair.key then set_at d ((i : Nat) : Int) (some pair)
      else KVSet.insertLoop d pair (((i : Nat) : Int) + 1) m) = .ok d' ∧ _
    by_cases hk : ps[i].key = pair.key
    · rw [if_pos hk]
      obtain ⟨d', hok, hrep', hr', _, _, _⟩ := set_at_rep h hi' (some pair)
      refine ⟨d', hok, ?_, hr'⟩
      have hset : (ps.map some).set i (some pair) = (ps.set i pair).map some := by
        rw [List.map_set]
      rw [hset] at hrep'
      have habs : ps.take i ++ upsert pair (ps.drop i) = ps.set i pair := by
        rw [List.drop_eq_getElem_cons hi]
        rw [show upsert pair (ps[i] :: ps.drop (i + 1)) = pair :: ps.drop (i + 1) from by
          show (if ps[i].key = pair.key then pair :: ps.drop (i + 1)
            else ps[i] :: upsert pair (ps.drop (i + 1))) = _
          rw [if_pos hk]]
        rw [List.set_eq_take_append_cons_drop, if_pos hi]
      rw [habs]
      exact hrep'
    · rw [if_neg hk]
      have hcast : ((i : Nat) : Int) + 1 = (((i + 1 : Nat)) : Int) := by push_cast; ring
      rw [hcast]
      obtain ⟨d', hok, hrep', hr'⟩ := ih (i + 1) d ps h hrr (by omega)
      refine ⟨d', hok, ?_, hr'⟩
      have habs : ps.take i ++ upsert pair (ps.drop i) =
          ps.take (i + 1) ++ upsert pair (ps.drop (i + 1)) := by
        rw [List.drop_eq_getElem_cons hi]
        rw [show upsert pair (ps[i] :: ps.drop (i + 1)) =
            ps[i] :: upsert pair (ps.drop (i + 1)) from by
          show (if ps[i].key = pair.key then pair :: ps.drop (i + 1)
            else ps[i] :: upsert pair (ps.drop (i + 1))) = _
          rw [if_neg hk]]
        rw [List.take_succ, List.getElem?_eq_getElem hi, Option.toList_some,
          List.append_assoc, List.singleton_append]
      rw [habs]
      exact hrep'

theorem deleteLoop_spec [DecidableEq K] (k : K) :
    ∀ (fuel i : Nat) (d : DynamicArraySequence (SetPair K V)) (ps : List (SetPair K V)),
      Rep d (ps.map some) → 1 ≤ d.r → i + fuel = ps.length →
      ∃ d', KVSet.deleteLoop d k ((i : Nat) : Int) fuel = .ok d' ∧
        Rep d' ((ps.take i ++ removeFirstKey k (ps.drop i)).map some) ∧ d'.r = d.r := by
  intro fuel
  induction fuel with
  | zero =>
    intro i d ps h hrr hif
    refine ⟨d, rfl, ?_, rfl⟩
    have h1 : ps.take i = ps := by
      rw [show i = ps.length by omega]
      exact List.take_length ps
    have h2 : ps.drop i = [] := by
      rw [show i = ps.length by omega]
      exact List.drop_length ps
    rw [h1, h2]
    show Rep d ((ps ++ []).map some)
    rw [List.append_nil]
    exact h
  | succ m ih =>
    intro i d ps h hrr hif
    have hi : i < ps.length := by omega
    have hi' : i < (ps.map some).length := by simpa using hi
    have hga := get_at_rep h hi'
    have hgv : (ps.map some)[i] = some ps[i] := by simp
    show ∃ d', (match get_at d ((i : Nat) : Int) with
      | .error e => Except.error e
      | .ok none => Except.error d
      | .ok (some kv) =>
        if kv.key = k then
          match delete_at d ((i : Nat) : Int) with
          | .error e => Except.error e
          | .ok (_, d2) => Except.ok d2
        else KVSet.deleteLoop d k (((i : Nat) : Int) + 1) m) = .ok d' ∧ _
    rw [hga, hgv]
    show ∃ d', (if ps[i].key = k then
        match delete_at d ((i : Nat) : Int) with
        | .error e => Except.error e
        | .ok (_, d2) => Except.ok d2
      else KVSet.deleteLoop d k (((i : Nat) : Int) + 1) m) = .ok d' ∧ _
    by_cases hk : ps[i].key = k
    · rw [if_pos hk]
      obtain ⟨d', hok, hrep', hr', _, _⟩ := delete_at_rep h hrr hi'
      rw [hok]
      refine ⟨d', rfl, ?_, hr'⟩
      have hset : (ps.map some).take i ++ (ps.map some).drop (i + 1) =
          (ps.take i ++ ps.drop (i + 1)).map some := by
        rw [List.map_append, List.map_take, List.map_drop]
      rw [hset] at hrep'
      have habs : ps.take i ++ removeFirstKey k (ps.drop i) = ps.take i ++ ps.drop (i + 1) := by
        rw [List.drop_eq_getElem_cons hi]
        rw [show removeFirstKey k (ps[i] :: ps.drop (i + 1)) = ps.drop (i + 1) from by
          show (if ps[i].key = k then ps.drop (i + 1)
            else ps[i] :: removeFirstKey k (ps.drop (i + 1))) = _
          rw [if_pos hk]]
      rw [habs]
      exact hrep'
    · rw [if_neg hk]
      have hcast : ((i : Nat) : Int) + 1 = (((i + 1 : Nat)) : Int) := by push_cast; ring
      rw [hcast]
      obtain ⟨d', hok, hrep', hr'⟩ := ih (i + 1) d ps h hrr (by omega)
      refine ⟨d', hok, ?_, hr'⟩
      have habs : ps.take i ++ removeFirstKey k (ps.drop i) =
          ps.take (i + 1) ++ removeFirstKey k (ps.drop (i + 1)) := by
        rw [List.drop_eq_getElem_cons hi]
        rw [show removeFirstKey k (ps[i] :: ps.drop (i + 1)) =
            ps[i] :: removeFirstKey k (ps.drop (i + 1)) from by
          show (if ps[i].key = k then ps.drop (i + 1)
            else ps[i] :: removeFirstKey k (ps.drop (i + 1))) = _
          rw [if_neg hk]]
        rw [List.take_succ, List.getElem?_eq_getElem hi, Option.toList_some,
          List.append_assoc, List.singleton_append]
      rw [habs]
      exact hrep'

theorem kvinsert_spec [DecidableEq K] {s : KVSet K V} {ps : List (SetPair K V)}
    (h : SRep s ps) (x : K × V) :
    ∃ t, KVSet.insert s x = .ok t ∧ SRep t (upsert (SetPair.mk x.1 x.2) ps) := by
  obtain ⟨hrep, hr2⟩ := h
  have hfuel : s.KV.size.toNat = ps.length := by
    have h1 := hrep.1
    simp only [List.length_map] at h1
    omega
  obtain ⟨d', hok, hrep', hr'⟩ := insertLoop_spec (SetPair.mk x.1 x.2) s.KV.size.toNat 0
    s.KV ps hrep (by omega) (by omega)
  simp only [Nat.cast_zero, List.take_zero, List.drop_zero, List.nil_append] at hok hrep'
  refine ⟨⟨d'⟩, ?_, hrep', by rw [hr']; exact hr2⟩
  show KVSet.insert s x = _
  unfold KVSet.insert
  rw [hok]

theorem kvdelete_spec [DecidableEq K] {s : KVSet K V} {ps : List (SetPair K V)}
    (h : SRep s ps) (k : K) :
    ∃ t, KVSet.delete s k = .ok t ∧ SRep t (removeFirstKey k ps) := by
  obtain ⟨hrep, hr2⟩ := h
  have hfuel : s.KV.size.toNat = ps.length := by
    have h1 := hrep.1
    simp only [List.length_map] at h1
    omega
  obtain ⟨d', hok, hrep', hr'⟩ := deleteLoop_spec k s.KV.size.toNat 0 s.KV ps hrep
    (by omega) (by omega)
  simp only [Nat.cast_zero, List.take_zero, List.drop_zero, List.nil_append] at hok hrep'
  refine ⟨⟨d'⟩, ?_, hrep', by rw [hr']; exact hr2⟩
  show KVSet.delete s k = _
  unfold KVSet.delete
  rw [hok]

theorem kvbuild_spec [DecidableEq K] (X : List (K × V)) :
    ∃ s0, KVSet.build KVSet.mkSet X = .ok s0 ∧
      SRep s0 (X.map fun t => SetPair.mk t.1 t.2) := by
  obtain ⟨d', hok, hrep', hr'⟩ := build_rep (X.map fun t => SetPair.mk t.1 t.2)
    (mkDyn 2 : DynamicArraySequence (SetPair K V)) [] (by exact one_le_two) (rep_mkDyn 2)
  refine ⟨⟨d'⟩, ?_, ?_, hr'⟩
  · show KVSet.build KVSet.mkSet X = _
    unfold KVSet.build KVSet.mkSet
    rw [hok]
  · simpa using hrep'

theorem applySOp_srep [DecidableEq K] {s : KVSet K V} {ps : List (SetPair K V)}
    (h : SRep s ps) (op : SOp K V) :
    ∃ s', SOp.applySOp s op = .ok s' ∧ SRep s' (SOp.absSOp ps op) := by
  cases op with
  | ins x =>
    obtain ⟨t, hok, ht⟩ := kvinsert_spec h x
    exact ⟨t, hok, ht⟩
  | del k =>
    obtain ⟨t, hok, ht⟩ := kvdelete_spec h k
    exact ⟨t, hok, ht⟩

theorem applySOps_srep [DecidableEq K] : ∀ (ops : List (SOp K V)) (s : KVSet K V)
    (ps : List (SetPair K V)), SRep s ps →
    ∃ s', SOp.applySOps s ops = .ok s' ∧ SRep s' (SOp.absSOps ps ops) := by
  intro ops
  induction ops with
  | nil =>
    intro s ps h
    exact ⟨s, rfl, h⟩
  | cons op rest ih =>
    intro s ps h
    obtain ⟨s1, hok1, h1⟩ := applySOp_srep h op
    obtain ⟨s', hok', h'⟩ := ih s1 (SOp.absSOp ps op) h1
    refine ⟨s', ?_, h'⟩
    show SOp.applySOps s (op :: rest) = _
    simp only [SOp.applySOps]
    rw [hok1]
    exact hok'

theorem absSOp_nodup [DecidableEq K] {ps : List (SetPair K V)}
    (h : (ps.map SetPair.key).Nodup) (op : SOp K V) :
    ((SOp.absSOp ps op).map SetPair.key).Nodup := by
  cases op with
  | ins x => exact upsert_nodup _ ps h
  | del k => exact removeFirstKey_nodup k ps h

theorem absSOps_nodup [DecidableEq K] : ∀ (ops : List (SOp K V)) (ps : List (SetPair K V)),
    (ps.map SetPair.key).Nodup → ((SOp.absSOps ps ops).map SetPair.key).Nodup := by
  intro ops
  induction ops with
  | nil => intro ps h; exact h
  | cons op rest ih =>
    intro ps h
    exact ih (SOp.absSOp ps op) (absSOp_nodup h op)

theorem upsert_of_mem_full [DecidableEq K] {ps : List (SetPair K V)} {k : K} (v : V)
    (hmem : k ∈ ps.map SetPair.key) :
    ∃ j, ∃ hj : j < ps.length, (ps.get ⟨j, hj⟩).key = k ∧
      upsert (SetPair.mk k v) ps = ps.set j (SetPair.mk k v) :=
  upsert_of_mem (SetPair.mk k v) ps hmem

theorem srep_size {s : KVSet K V} {ps : List (SetPair K V)} (h : SRep s ps) :
    s.KV.size = (ps.length : Int) := by
  have h1 := h.1.1
  simp only [List.length_map] at h1
  exact h1

/-! Claim theorems. -/

/-- Claim C1, counterexample to the claim as stated: the claim quantifies over
every DynamicArraySequence, but with growth factor r = 1 the valid sequence
insert_last(0); delete_last() starting from empty ends with lower = 1 and
logical_size = 0, violating lower <= logical_size. -/
theorem claim1_counterexample :
    DOp.validSeq ([] : List (Option Int)) [DOp.insLast 0, DOp.delLast] = true ∧
    (DOp.applyOps (mkDyn 1) [DOp.insLast (0 : Int), DOp.delLast]).map
      (fun s => ((s.lower : Int), s.size)) = .ok (1, 0) ∧
    ¬ ((1 : Int) ≤ (0 : Int)) := by
  decide

/-- Claim C1, amended to growth factors r >= 2 (the default is 2): for every
valid sequence of insert/delete operations on a DynamicArraySequence starting
from empty, the run returns normally, after each operation (hence after the
whole sequence, which ranges over all valid prefixes) lower <= logical_size
<= upper for the bounds recomputed by _compute_bounds, and the logical size
equals the number of insertions minus the number of deletions performed. -/
theorem claim1_bounds_invariant : ∀ (α : Type) (r : Nat) (ops : List (DOp α)),
    2 ≤ r → DOp.validSeq [] ops = true →
    ∃ s', DOp.applyOps (mkDyn r) ops = .ok s' ∧
      (s'.lower : Int) ≤ s'.size ∧ s'.size ≤ (s'.upper : Int) ∧
      s'.size = (DOp.insCount ops : Int) - (DOp.delCount ops : Int) := by
  intro α r ops hr hv
  obtain ⟨s', hok, hrep, hr', hb⟩ :=
    applyOps_rep ops (mkDyn r) [] (rep_mkDyn r) hr (le_of_eq (Nat.zero_div (r * r))) hv
  have h1 := hrep.1
  have h2 := hrep.2.2.1
  have h3 := hrep.2.2.2.1
  have h4 := absOps_length ops ([] : List (Option α)) hv
  simp only [List.length_nil] at h4
  exact ⟨s', hok, by omega, by omega, by omega⟩

/-- Witness for claim C1: a concrete valid run with r = 2. -/
theorem claim1_witness :
    (2 ≤ 2 ∧ DOp.validSeq ([] : List (Option Int))
      [DOp.insLast 5, DOp.insLast 7, DOp.delLast] = true) ∧
    ∃ s', DOp.applyOps (mkDyn 2) [DOp.insLast (5 : Int), DOp.insLast 7, DOp.delLast] = .ok s' ∧
      (s'.lower : Int) ≤ s'.size ∧ s'.size ≤ (s'.upper : Int) ∧
      s'.size = (DOp.insCount [DOp.insLast (5 : Int), DOp.insLast 7, DOp.delLast] : Int) -
        (DOp.delCount [DOp.insLast (5 : Int), DOp.insLast 7, DOp.delLast] : Int) :=
  ⟨⟨by decide, by decide⟩, claim1_bounds_invariant Int 2 _ (by decide) (by decide)⟩

/-- Claim C2: for every DynamicArraySequence state representing live slots
ols and every index 0 <= i < size, delete_at(i) returns the slot previously
stored at index i, shifts the slots above i one position left, decrements
the logical size, and reallocates the buffer to max(new_size, 1) * r exactly
when the new logical size falls to or below lower (the other leg of the
resize window, new_size >= upper, is impossible); and in the concrete
scenario with r = 2, build([1,3,4,2]) gives capacity >= 4 and two
delete_last() calls give size 2 and capacity 2 * r = 4. -/
theorem claim2_delete_at_spec :
    (∀ (α : Type) (s : DynamicArraySequence α) (ols : List (Option α)) (i : Nat)
      (_h : Rep s ols), 1 ≤ s.r → ∀ hi : i < ols.length,
      ∃ s', delete_at s ((i : Nat) : Int) = .ok (ols.get ⟨i, hi⟩, s') ∧
        Rep s' (ols.take i ++ ols.drop (i + 1)) ∧ s'.size = s.size - 1 ∧
        s'.A.length = (if (s.lower : Int) < s.size - 1 ∧ s.size - 1 < (s.upper : Int)
                      then s.A.length else (max (ols.length - 1) 1) * s.r) ∧
        (¬((s.lower : Int) < s.size - 1 ∧ s.size - 1 < (s.upper : Int)) ↔
          s.size - 1 ≤ (s.lower : Int))) ∧
    (∃ s0, DynamicArraySequence.build (mkDyn 2) [(1 : Int), 3, 4, 2] = .ok s0 ∧
      4 ≤ s0.A.length ∧
      ∃ x1 s1, delete_last s0 = .ok (x1, s1) ∧
      ∃ x2 s2, delete_last s1 = .ok (x2, s2) ∧ s2.size = 2 ∧ s2.A.length = 2 * 2) := by
  constructor
  · intro α s ols i h hr hi
    obtain ⟨s', hok, hrep', hr', hsz', hlen'⟩ := delete_at_rep h hr hi
    refine ⟨s', hok, hrep', hsz', hlen', ?_⟩
    have h1 := h.1
    have h2 := h.2.2.1
    have h3 := h.2.2.2.1
    constructor
    · intro hns
      omega
    · intro hle hcon
      omega
  · exact ⟨_, rfl, by decide, _, _, rfl, _, _, rfl, by decide, by decide⟩

/-- Witness for claim C2: deleting index 1 from the sequence built from
[1, 3, 4, 2] returns the slot holding 3. -/
theorem claim2_witness :
    (Rep (⟨[some 1, some 3, some 4, some 2, none, none, none, none], 4, 2, 8, 2⟩ :
        DynamicArraySequence Int) [some 1, some 3, some 4, some 2] ∧
      1 ≤ 2 ∧ 1 < 4) ∧
    ∃ s', delete_at (⟨[some 1, some 3, some 4, some 2, none, none, none, none], 4, 2, 8, 2⟩ :
        DynamicArraySequence Int) 1 = .ok (some 3, s') :=
  ⟨⟨by decide, by decide, by decide⟩, by
    obtain ⟨s', hok, _⟩ := claim2_delete_at_spec.1 Int
      ⟨[some 1, some 3, some 4, some 2, none, none, none, none], 4, 2, 8, 2⟩
      [some 1, some 3, some 4, some 2] 1 (by decide) (by decide) (by decide)
    exact ⟨s', hok⟩⟩

/-- Claim C10: whenever _resize(n) replaces the backing buffer (the request n
is not strictly inside the (lower, upper) window), the logical size, the
growth factor, and the live slots below the logical size are unchanged; only
the capacity (now max(n, 1) * r) and the recomputed upper/lower bounds
change.  The side condition that the live slots fit in the new buffer holds
at both call sites of _resize (n = size + 1 in insert_last and n = size in
delete_last, with r >= 1). -/
theorem claim10_resize_frame : ∀ (α : Type) (s : DynamicArraySequence α)
    (ols : List (Option α)) (n : Int), Rep s ols →
    ¬((s.lower : Int) < n ∧ n < (s.upper : Int)) →
    ols.length ≤ (max n 1).toNat * s.r →
    ∃ s', resize s n = .ok s' ∧ s'.size = s.size ∧ s'.r = s.r ∧
      s'.A.take s.size.toNat = s.A.take s.size.toNat ∧
      s'.A.length = (max n 1).toNat * s.r ∧ s'.upper = s'.A.length ∧
      s'.lower = s'.A.length / (s'.r * s'.r) := by
  intro α s ols n h hn hm
  obtain ⟨s', hok, hrep', hsz', hr', hlen'⟩ := resize_rep h n (fun _ => hm)
  rw [if_neg hn] at hlen'
  have hfuel : s.size.toNat = ols.length := by
    have h1 := h.1
    omega
  have htake : s.A.take s.size.toNat = ols := by
    rw [hfuel]
    conv_lhs => rw [h.2.1]
    rw [List.take_append_of_le_length (le_refl ols.length), List.take_length]
  have htake' : s'.A.take s.size.toNat = ols := by
    rw [hfuel]
    conv_lhs => rw [hrep'.2.1]
    rw [List.take_append_of_le_length (le_refl ols.length), List.take_length]
  refine ⟨s', hok, hsz', hr', ?_, hlen', hrep'.2.2.2.1, ?_⟩
  · rw [htake, htake']
  · rw [hrep'.2.2.2.2, hr']

/-- Witness for claim C10: shrinking the one-element sequence of capacity 2
to a fresh buffer. -/
theorem claim10_witness :
    (Rep (⟨[some 1, none], 1, 2, 2, 0⟩ : DynamicArraySequence Int) [some 1] ∧
      ¬(((⟨[some 1, none], 1, 2, 2, 0⟩ : DynamicArraySequence Int).lower : Int) < 2 ∧
        (2 : Int) < ((⟨[some 1, none], 1, 2, 2, 0⟩ : DynamicArraySequence Int).upper : Int)) ∧
      ([some (1 : Int)] : List (Option Int)).length ≤ (max (2 : Int) 1).toNat * 2) ∧
    ∃ s', resize (⟨[some 1, none], 1, 2, 2, 0⟩ : DynamicArraySequence Int) 2 = .ok s' ∧
      s'.size = 1 ∧ s'.A.take 1 = [some 1] := by
  refine ⟨⟨by decide, by decide, by decide⟩, ?_⟩
  obtain ⟨s', hok, hsz', _, htake, _⟩ := claim10_resize_frame Int
    ⟨[some 1, none], 1, 2, 2, 0⟩ [some 1] 2 (by decide) (by decide) (by decide)
  refine ⟨s', hok, hsz', ?_⟩
  have h2 : (⟨[some 1, none], 1, 2, 2, 0⟩ : DynamicArraySequence Int).A.take
      (⟨[some 1, none], 1, 2, 2, 0⟩ : DynamicArraySequence Int).size.toNat = [some 1] := by
    decide
  rw [← h2]
  exact htake

/-- Claim C4, counterexample to the claim as stated: after build([1]) the
logical size is 1 and the capacity is 2, and get_at(1) - an index outside
the valid logical range - returns the padding slot (Python None) instead of
raising IndexError. -/
theorem claim4_counterexample :
    (DynamicArraySequence.build (mkDyn 2) [(1 : Int)]).map
      (fun s => ((s.size, s.A.length), get_at s 1)) = .ok ((1, 2), .ok none) := by
  decide

/-- Claim C4, amended: get_at, set_at and delete_at raise IndexError exactly
when the index falls outside the physical bounds [-capacity, capacity) of
the backing Python list, not the logical range; insert_at raises exactly
when the index falls outside the physical bounds of the buffer after its
internal growth step (the insert_last(None) call it performs first). -/
theorem claim4_physical_bounds : ∀ (α : Type) (s : DynamicArraySequence α)
    (ols : List (Option α)) (i : Int), Rep s ols → 1 ≤ s.r →
    ((∃ e, get_at s i = .error e) ↔ (i < -(s.A.length : Int) ∨ (s.A.length : Int) ≤ i)) ∧
    (∀ x : Option α, (∃ e, set_at s i x = .error e) ↔
      (i < -(s.A.length : Int) ∨ (s.A.length : Int) ≤ i)) ∧
    ((∃ e, delete_at s i = .error e) ↔ (i < -(s.A.length : Int) ∨ (s.A.length : Int) ≤ i)) ∧
    (∀ x : α, ∃ s1, insert_last s none = .ok s1 ∧
      ((∃ e, insert_at s i x = .error e) ↔
        (i < -(s1.A.length : Int) ∨ (s1.A.length : Int) ≤ i))) := by
  intro α s ols i h hr
  refine ⟨get_at_error_iff s i, fun x => set_at_error_iff s i x, ?_, ?_⟩
  · constructor
    · rintro ⟨e, he⟩
      exact (delete_at_error_char h hr he).2
    · intro hoob
      refine ⟨s, ?_⟩
      unfold delete_at
      rw [pyget_oob hoob]
  · intro x
    obtain ⟨s1, hins, hinr, hoobc⟩ := insert_at_char h hr i x
    refine ⟨s1, hins, ?_, ?_⟩
    · rintro ⟨e, he⟩
      by_contra hcon
      obtain ⟨s', hok⟩ := hinr ⟨by omega, by omega⟩
      rw [hok] at he
      cases he
    · intro hoob
      exact hoobc hoob

/-- Witness for claim C4: on the one-element sequence of capacity 2, index 5
is outside the physical bounds and get_at raises. -/
theorem claim4_witness :
    (Rep (⟨[some 1, none], 1, 2, 2, 0⟩ : DynamicArraySequence Int) [some 1] ∧
      1 ≤ (2 : Nat)) ∧
    ((∃ e, get_at (⟨[some 1, none], 1, 2, 2, 0⟩ : DynamicArraySequence Int) 5 = .error e) ↔
      ((5 : Int) < -(2 : Int) ∨ (2 : Int) ≤ (5 : Int))) :=
  ⟨⟨by decide, by decide⟩,
    (claim4_physical_bounds Int ⟨[some 1, none], 1, 2, 2, 0⟩ [some 1] 5
      (by decide) (by decide)).1⟩

/-- Claim C8, counterexample to the claim as stated: insert_at(5, 9) on the
one-element sequence built from [1] raises IndexError, but the escaped state
has logical size 2 (and a reallocated buffer), not the pre-call size 1: the
internal insert_last runs and mutates the sequence before the failing
write. -/
theorem claim8_counterexample :
    (DynamicArraySequence.build (mkDyn 2) [(1 : Int)]).map
      (fun s => (s.size,
        match insert_at s 5 9 with
        | .error e => some e.size
        | .ok _ => none)) = .ok (1, some 2) ∧ (2 : Int) ≠ 1 := by
  decide

/-- Claim C8, amended: get_at, set_at and delete_at leave the sequence
unchanged whenever they raise; insert_at is excluded, since it can raise
after its internal insert_last has already grown the sequence. -/
theorem claim8_raise_no_mutation : ∀ (α : Type) (s : DynamicArraySequence α)
    (ols : List (Option α)) (i : Int), Rep s ols → 1 ≤ s.r →
    (∀ e, get_at s i = .error e → e = s) ∧
    (∀ x e, set_at s i x = .error e → e = s) ∧
    (∀ e, delete_at s i = .error e → e = s) := by
  intro α s ols i h hr
  exact ⟨fun e he => get_at_error_state he, fun x e he => set_at_error_state he,
    fun e he => (delete_at_error_char h hr he).1⟩

/-- Witness for claim C8 on a concrete state and index. -/
theorem claim8_witness :
    (Rep (⟨[some 1, none], 1, 2, 2, 0⟩ : DynamicArraySequence Int) [some 1] ∧
      1 ≤ (2 : Nat)) ∧
    (∀ e, get_at (⟨[some 1, none], 1, 2, 2, 0⟩ : DynamicArraySequence Int) 7 = .error e →
      e = ⟨[some 1, none], 1, 2, 2, 0⟩) :=
  ⟨⟨by decide, by decide⟩,
    (claim8_raise_no_mutation Int ⟨[some 1, none], 1, 2, 2, 0⟩ [some 1] 7
      (by decide) (by decide)).1⟩

/-- Claim C9: on every state reachable through insert_last/delete_last calls
from a constructor with growth factor r >= 1, the _resize(size + 1) at the
start of insert_last returns normally and leaves the capacity strictly above
the pre-call logical size, the subsequent write A[size] = x is within the
buffer bounds, and insert_last never raises. -/
theorem claim9_insert_last_safe : ∀ (α : Type) (s : DynamicArraySequence α) (x : Option α),
    Reach s →
    ∃ s1, resize s (s.size + 1) = .ok s1 ∧ s.size < (s1.A.length : Int) ∧
      (∃ A2, pyset s1.A s1.size x = some A2) ∧ ∃ s', insert_last s x = .ok s' := by
  intro α s x h
  obtain ⟨s1, A2, hres, hcap, hset, hins, _⟩ := insert_last_safe (reach_safe h) x
  exact ⟨s1, hres, hcap, ⟨A2, hset⟩, ⟨_, hins⟩⟩

/-- Witness for claim C9: the freshly constructed sequence is reachable and
its first insert_last is safe. -/
theorem claim9_witness :
    Reach (mkDyn 2 : DynamicArraySequence Int) ∧
    ∃ s1, resize (mkDyn 2 : DynamicArraySequence Int)
        ((mkDyn 2 : DynamicArraySequence Int).size + 1) = .ok s1 ∧
      (mkDyn 2 : DynamicArraySequence Int).size < (s1.A.length : Int) ∧
      (∃ A2, pyset s1.A s1.size (some (3 : Int)) = some A2) ∧
      ∃ s', insert_last (mkDyn 2 : DynamicArraySequence Int) (some 3) = .ok s' :=
  ⟨Reach.init 2 (by decide),
    claim9_insert_last_safe Int _ (some 3) (Reach.init 2 (by decide))⟩

/-- Claim C3: the code diverges from the claimed behavior.  On the Set built
from [(2,20),(1,10),(3,30)] the stored keys are 1 < 2 < 3, so find_next(1)
should return the pair with key 2; instead _find_direction indexes the
UNSORTED storage-order tuple list with the position found in the sorted
list, and find_next(1) returns (1, 10). -/
theorem claim3_find_direction_bug :
    (KVSet.build KVSet.mkSet [((2 : Nat), (20 : Nat)), (1, 10), (3, 30)]).map
      (fun s => KVSet.find_next s 1) = .ok (some (1, 10)) ∧
    (Except.ok (some ((1 : Nat), (10 : Nat))) :
        Except (KVSet Nat Nat) (Option (Nat × Nat))) ≠ .ok (some (2, 20)) := by
  decide

/-- Claim C5: the code diverges from the claimed behavior.  Set.find iterates
over the RAW backing buffer (ArraySequence.__iter__ yields every physical
slot, padding included) and calls kv.key on each entry without a None guard,
so on the Set built from [(1,10)] — whose buffer holds one live pair and one
None padding slot — find(2) reaches the padding slot and raises
AttributeError instead of returning the not-found signal. -/
theorem claim5_find_raises :
    (KVSet.build KVSet.mkSet [((1 : Nat), (10 : Nat))]).map
      (fun s => KVSet.find s 2) = .ok (.error ()) := by
  decide

/-- Claim C6, counterexample to the claim as stated: build does not
deduplicate, so building from [(1,10),(1,20)] stores two live pairs that
share the key 1. -/
theorem claim6_counterexample :
    (KVSet.build KVSet.mkSet [((1 : Nat), (10 : Nat)), (1, 20)]).map
      (fun s => (s.KV.A.take s.KV.size.toNat).filterMap (fun o => o.map SetPair.key)) =
      .ok [1, 1] ∧ ¬ ([1, 1] : List Nat).Nodup := by
  decide

/-- Claim C6, amended: restricted to Sets built from an initial list with
pairwise-distinct keys, after any sequence of insert/delete calls no two
stored pairs share a key; insert of an existing key overwrites the stored
value in place, preserving position and size, and insert of a new key
appends the pair and increases the size by one. -/
theorem claim6_key_uniqueness : ∀ (K V : Type) [DecidableEq K] (X : List (K × V)),
    (X.map Prod.fst).Nodup →
    ∃ s0, KVSet.build KVSet.mkSet X = .ok s0 ∧
      ∀ ops : List (SOp K V), ∃ s' ps', SOp.applySOps s0 ops = .ok s' ∧ SRep s' ps' ∧
        (ps'.map SetPair.key).Nodup ∧
        ∀ k v,
          (k ∉ ps'.map SetPair.key →
            ∃ t, KVSet.insert s' (k, v) = .ok t ∧ SRep t (ps' ++ [SetPair.mk k v]) ∧
              t.KV.size = s'.KV.size + 1) ∧
          (k ∈ ps'.map SetPair.key →
            ∃ j, ∃ hj : j < ps'.length, (ps'.get ⟨j, hj⟩).key = k ∧
              ∃ t, KVSet.insert s' (k, v) = .ok t ∧
                SRep t (ps'.set j (SetPair.mk k v)) ∧ t.KV.size = s'.KV.size) := by
  intro K V _ X hX
  obtain ⟨s0, hbuild, hrep0⟩ := kvbuild_spec X
  refine ⟨s0, hbuild, ?_⟩
  intro ops
  obtain ⟨s', hok, hrep'⟩ := applySOps_srep ops s0 _ hrep0
  have hnod0 : ((X.map fun t => SetPair.mk t.1 t.2).map SetPair.key).Nodup := by
    simpa [Function.comp] using hX
  have hnod : ((SOp.absSOps (X.map fun t => SetPair.mk t.1 t.2) ops).map SetPair.key).Nodup :=
    absSOps_nodup ops _ hnod0
  refine ⟨s', _, hok, hrep', hnod, ?_⟩
  intro k v
  constructor
  · intro hmem
    obtain ⟨t, hins, hrept⟩ := kvinsert_spec hrep' (k, v)
    rw [upsert_of_not_mem _ _ hmem] at hrept
    refine ⟨t, hins, hrept, ?_⟩
    rw [srep_size hrept, srep_size hrep']
    simp
  · intro hmem
    obtain ⟨j, hj, hkey, hup⟩ := upsert_of_mem_full v hmem
    obtain ⟨t, hins, hrept⟩ := kvinsert_spec hrep' (k, v)
    rw [hup] at hrept
    refine ⟨j, hj, hkey, t, hins, hrept, ?_⟩
    rw [srep_size hrept, srep_size hrep']
    simp

/-- Witness for claim C6 on the Set built from [(1,10),(2,20)]. -/
theorem claim6_witness :
    ([((1 : Nat), (10 : Nat)), (2, 20)].map Prod.fst).Nodup ∧
    ∃ s0, KVSet.build KVSet.mkSet [((1 : Nat), (10 : Nat)), (2, 20)] = .ok s0 ∧
      ∀ ops : List (SOp Nat Nat), ∃ s' ps', SOp.applySOps s0 ops = .ok s' ∧ SRep s' ps' ∧
        (ps'.map SetPair.key).Nodup ∧
        ∀ k v,
          (k ∉ ps'.map SetPair.key →
            ∃ t, KVSet.insert s' (k, v) = .ok t ∧ SRep t (ps' ++ [SetPair.mk k v]) ∧
              t.KV.size = s'.KV.size + 1) ∧
          (k ∈ ps'.map SetPair.key →
            ∃ j, ∃ hj : j < ps'.length, (ps'.get ⟨j, hj⟩).key = k ∧
              ∃ t, KVSet.insert s' (k, v) = .ok t ∧
                SRep t (ps'.set j (SetPair.mk k v)) ∧ t.KV.size = s'.KV.size) :=
  ⟨by decide, claim6_key_uniqueness Nat Nat [(1, 10), (2, 20)] (by decide)⟩

/-- Claim C7, counterexample to the claim as stated: build does not clear.
Building [5] and then building [7] on the same sequence leaves logical size
2, not 1. -/
theorem claim7_counterexample :
    ((DynamicArraySequence.build (mkDyn 2) [(5 : Int)]).bind
      (fun s => DynamicArraySequence.build s [7])).map (fun s => s.size) = .ok 2 ∧
    (2 : Int) ≠ 1 := by
  decide

/-- Claim C7, amended: build(L) appends L to the existing live elements by
repeated insert_last; get_at then reads back L, in order, at offsets shifted
by the previous length.  On an initially empty sequence this is the claimed
round trip: logical size len(L) and get_at(i) = L[i]. -/
theorem claim7_build_round_trip : ∀ (α : Type) (X : List α) (s : DynamicArraySequence α)
    (ols : List (Option α)), 1 ≤ s.r → Rep s ols →
    ∃ s', DynamicArraySequence.build s X = .ok s' ∧
      s'.size = (ols.length : Int) + X.length ∧
      (∀ i, ∀ hi : i < X.length,
        get_at s' ((ols.length + i : Nat) : Int) = .ok (some (X.get ⟨i, hi⟩))) ∧
      (ols = [] → s'.size = (X.length : Int) ∧
        ∀ i, ∀ hi : i < X.length,
          get_at s' ((i : Nat) : Int) = .ok (some (X.get ⟨i, hi⟩))) := by
  intro α X s ols hr h
  obtain ⟨s', hok, hrep', _⟩ := build_rep X s ols hr h
  have hsz : s'.size = (((ols ++ X.map some).length : Nat) : Int) := hrep'.1
  have hget : ∀ i, ∀ hi : i < X.length,
      get_at s' ((ols.length + i : Nat) : Int) = .ok (some (X.get ⟨i, hi⟩)) := by
    intro i hi
    have hlt : ols.length + i < (ols ++ X.map some).length := by
      simp only [List.length_append, List.length_map]
      omega
    rw [get_at_rep hrep' hlt]
    congr 1
    rw [List.getElem_append_right (by omega)]
    simp
  refine ⟨s', hok, ?_, hget, ?_⟩
  · rw [hsz]
    simp
  · intro he
    subst he
    refine ⟨by simpa using hsz, ?_⟩
    intro i hi
    simpa using hget i hi

/-- Witness for claim C7 on the empty sequence and the list [5, 7]. -/
theorem claim7_witness :
    (1 ≤ (mkDyn 2 : DynamicArraySequence Int).r ∧
      Rep (mkDyn 2 : DynamicArraySequence Int) []) ∧
    (∃ s', DynamicArraySequence.build (mkDyn 2 : DynamicArraySequence Int) [5, 7] = .ok s' ∧
      s'.size = (([] : List (Option Int)).length : Int) + [(5 : Int), 7].length ∧
      (∀ i, ∀ hi : i < [(5 : Int), 7].length,
        get_at s' ((([] : List (Option Int)).length + i : Nat) : Int) =
          .ok (some ([(5 : Int), 7].get ⟨i, hi⟩))) ∧
      (([] : List (Option Int)) = [] → s'.size = ([(5 : Int), 7].length : Int) ∧
        ∀ i, ∀ hi : i < [(5 : Int), 7].length,
          get_at s' ((i : Nat) : Int) = .ok (some ([(5 : Int), 7].get ⟨i, hi⟩)))) :=
  ⟨⟨by decide, by decide⟩,
    claim7_build_round_trip Int [5, 7] (mkDyn 2) [] (by decide) (by decide)⟩

end Lec2
